import Mathlib

/-!
Verification of the sell-list parsing and synchronization engine of
`seller.py` (a Warframe Market personal-automation client).

Strings are modelled as lists of Unicode code points (`Str := List Nat`),
so that the Python string primitives used by the source (`strip`, `split`,
`title`, `isdigit`, `replace`, `lower`, iteration over file lines) become
pure, executable Lean functions with the same semantics on the inputs the
program handles.
-/

/-- A Python string, as its list of code points. -/
abbrev Str := List Nat

/-- Code points of a Lean string literal, used to write concrete inputs. -/
def strToCodes (s : String) : Str := s.toList.map Char.toNat

/-- Python `str.isspace` on a single character (ASCII whitespace as used by
`strip`/`split`): space, tab, LF, CR, VT, FF. -/
def isSpace (c : Nat) : Bool := decide (c = 32 ∨ c = 9 ∨ c = 10 ∨ c = 13 ∨ c = 11 ∨ c = 12)

/-- ASCII decimal digit, the class recognized by Python `str.isdigit` on the
program's inputs. -/
def isDigitCh (c : Nat) : Bool := decide (48 ≤ c ∧ c ≤ 57)

/-- ASCII letter (a cased character for `str.title`/`lower` on the program's
ASCII item names). -/
def isAlphaCh (c : Nat) : Bool := decide ((65 ≤ c ∧ c ≤ 90) ∨ (97 ≤ c ∧ c ≤ 122))

/-- Python `str.lower` on one character. -/
def toLowerCh (c : Nat) : Nat := if 65 ≤ c ∧ c ≤ 90 then c + 32 else c

/-- Python `str.upper` on one character. -/
def toUpperCh (c : Nat) : Nat := if 97 ≤ c ∧ c ≤ 122 then c - 32 else c

/-- Python `str.isdigit`: nonempty and all digits. -/
def pyIsDigit (s : Str) : Bool := !s.isEmpty && s.all isDigitCh

/-- Python `int` on a digit string. -/
def pyInt (s : Str) : Nat := s.foldl (fun a c => 10 * a + (c - 48)) 0

/-- Decimal rendering of a natural number (Python `f-string` of an `int`);
`fuel` bounds the recursion and is always at least the number rendered. -/
def natDigitsGo : Nat → Nat → Str
  | 0, n => [48 + n]
  | fuel + 1, n => if n < 10 then [48 + n] else natDigitsGo fuel (n / 10) ++ [48 + n % 10]

/-- Decimal rendering of a natural number, e.g. `natDigits 15 = "15"`. -/
def natDigits (n : Nat) : Str := natDigitsGo n n

/-- Python `str.lstrip` (whitespace). -/
def lstrip (s : Str) : Str := s.dropWhile isSpace

/-- Python `str.rstrip` (whitespace). -/
def rstrip (s : Str) : Str := (s.reverse.dropWhile isSpace).reverse

/-- Python `str.strip` (whitespace, both ends). -/
def pyStrip (s : Str) : Str := rstrip (lstrip s)

/-- Worker for `splitWs`: `acc` is the current word, reversed. -/
def splitWsGo : Str → Str → List Str
  | acc, [] => if acc = [] then [] else [acc.reverse]
  | acc, c :: t =>
    if isSpace c then
      (if acc = [] then splitWsGo [] t else acc.reverse :: splitWsGo [] t)
    else splitWsGo (c :: acc) t

/-- Python `str.split()` with no separator: split on runs of whitespace,
dropping empty tokens. -/
def splitWs (s : Str) : List Str := splitWsGo [] s

/-- Python `" ".join`. -/
def unwords : List Str → Str
  | [] => []
  | [t] => t
  | t :: u :: rest => t ++ 32 :: unwords (u :: rest)

/-- One character of `str.title`: `p` records whether the previous character
was cased. -/
def titleMap (p : Bool) (c : Nat) : Nat :=
  if isAlphaCh c then (if p then toLowerCh c else toUpperCh c) else c

/-- Worker for `pyTitle`. -/
def titleAux : Bool → Str → Str
  | _, [] => []
  | p, c :: t => titleMap p c :: titleAux (isAlphaCh c) t

/-- Python `str.title`. -/
def pyTitle (s : Str) : Str := titleAux false s

/-- Worker for `pyReplace`; `fuel` bounds the recursion (always at least the
length of the remaining string). -/
def pyReplaceGo (pat rep : Str) : Nat → Str → Str
  | _, [] => []
  | 0, s => s
  | fuel + 1, c :: t =>
    if pat ≠ [] ∧ pat.isPrefixOf (c :: t) then
      rep ++ pyReplaceGo pat rep fuel ((c :: t).drop pat.length)
    else c :: pyReplaceGo pat rep fuel t

/-- Python `str.replace(pat, rep)`: replace all non-overlapping occurrences,
scanning left to right. -/
def pyReplace (pat rep s : Str) : Str := pyReplaceGo pat rep s.length s

/-- Python file-line iteration: split the content into lines, each keeping its
trailing newline (the last line may lack one). -/
def pyLines : Str → List Str
  | [] => []
  | c :: t =>
    if c = 10 then [10] :: pyLines t
    else
      match pyLines t with
      | [] => [[c]]
      | l :: ls => (c :: l) :: ls

/-! ## Data model (from `seller.py`) -/

/-- `LineInfo` dataclass: one actionable sell-list line. `none` models the
Python `None` the parser leaves in unclassified fields. -/
structure LineInfo where
  item_name : Str
  rank : Option Nat
  min_price : Option Nat
  quantity : Option Nat
deriving DecidableEq

/-- `MarketOrder` dataclass: one live order of the user. -/
structure MarketOrder where
  id : Str
  item_id : Str
  item_name : Str
  item_url_name : Str
  platinum : Nat
  rank : Option Nat
  quantity : Nat
deriving DecidableEq

/-- `SELL_LIST_INDENT` module constant. -/
def SELL_LIST_INDENT : Nat := 2

/-- `DEFAULT_MIN_PRICE` module constant. -/
def DEFAULT_MIN_PRICE : Nat := 9

/-- `SELL_LIST_FILE` module constant. -/
def SELL_LIST_FILE : Str := strToCodes "sell_list.txt"

/-! ## Line parser (`parse_line`) -/

/-- The `r<digits>` test from the parser loop:
`item.startswith("r") and item[1:].isdigit()` (114 = `r`). -/
def isRTokB : Str → Bool
  | c :: rest => decide (c = 114) && pyIsDigit rest
  | [] => false

/-- The `min<digits>` test:
`item.startswith("min") and item[3:].isdigit()` (109,105,110 = `min`). -/
def isMinTokB : Str → Bool
  | c1 :: c2 :: c3 :: rest =>
    decide (c1 = 109) && decide (c2 = 105) && decide (c3 = 110) && pyIsDigit rest
  | _ => false

/-- The body of the parser's token loop (the `if`/`elif` chain); one token
updates at most one field, overwriting any previous value. -/
def classify (info : LineInfo) (t : Str) : LineInfo :=
  if pyIsDigit t then { info with quantity := some (pyInt t) }
  else if isRTokB t then { info with rank := some (pyInt (t.drop 1)) }
  else if isMinTokB t then { info with min_price := some (pyInt (t.drop 3)) }
  else info

/-- `parse_line` from `seller.py`: strip, require the `+` marker (code 43),
tokenize, classify tokens scanning the reversed token list, then delete one
trailing token per classified field and join the remainder as the
title-cased item name. (The trailing deletions never hit an empty list: each
classified field was set by a distinct token, so the token count bounds the
number of deletions.) -/
def parse_line (raw : Str) : Option LineInfo :=
  let line := pyStrip raw
  if [43].isPrefixOf line then
    let linelist := splitWs (pyStrip (line.drop 1))
    let info := linelist.reverse.foldl classify ⟨[], none, none, none⟩
    let l1 := if info.quantity ≠ none then linelist.dropLast else linelist
    let l2 := if info.rank ≠ none then l1.dropLast else l1
    let l3 := if info.min_price ≠ none then l2.dropLast else l2
    some { info with item_name := pyTitle (unwords l3) }
  else none

/-! ## Line formatter (`create_line`) -/

/-- The literal ` [OUT OF STOCK]` marker. -/
def outOfStockS : Str := strToCodes " [OUT OF STOCK]"

/-- `create_line` from `seller.py`: indentation, `+ ` marker (blanked for
quantity 0), item name with underscores restored to spaces, optional ` r<n>`
and ` min<n>`, quantity or out-of-stock marker, trailing newline. -/
def create_line (info : LineInfo) : Str :=
  let l1 := List.replicate SELL_LIST_INDENT 32 ++
    (if info.quantity = some 0 then [32, 32] else [43, 32])
  let l2 := l1 ++ info.item_name.map (fun c => if c = 95 then 32 else c)
  let l3 := l2 ++ (match info.rank with
    | some r => 32 :: 114 :: natDigits r
    | none => [])
  let l4 := l3 ++ (match info.min_price with
    | some m => 32 :: 109 :: 105 :: 110 :: natDigits m
    | none => [])
  let l5 := l4 ++ (if info.quantity = some 0 then outOfStockS
    else match info.quantity with
      | some q => 32 :: natDigits q
      | none => [])
  l5 ++ [10]

/-! ## Pricing resolver (`get_price`) -/

/-- One order of the public order book for an item, with the fields
`get_price` reads from the API response (`order_type`, `user.status`,
`platinum`). -/
structure BookOrder where
  order_type : Str
  user_status : Str
  platinum : Nat
deriving DecidableEq

/-- The string `"sell"`. -/
def sellS : Str := strToCodes "sell"

/-- The string `"ingame"`. -/
def ingameS : Str := strToCodes "ingame"

/-- The filter of `get_price`: sell orders from users who are in game. -/
def isIngameSell (o : BookOrder) : Bool :=
  decide (o.order_type = sellS) && decide (o.user_status = ingameS)

/-- `get_price` from `seller.py`, over an already-fetched order book: filter
to in-game sell orders; if any remain, return the maximum of their minimum
platinum price and `min_price`; otherwise report the error and return no
price (Python falls through and returns `None`). -/
def get_price (orders : List BookOrder) (min_price : Nat) : Option Nat :=
  let ingame_sell_orders := orders.filter isIngameSell
  match ingame_sell_orders with
  | [] => none
  | o :: rest => some (max (rest.foldl (fun a x => Nat.min a x.platinum) o.platinum) min_price)

/-! ## Seller driver (`run_seller`, `create_sell_order`) -/

/-- The string `"orokin"`, as code points. -/
def orokinS : Str := [111, 114, 111, 107, 105, 110]

/-- The string `"corrupted"`, as code points. -/
def corruptedS : Str := [99, 111, 114, 114, 117, 112, 116, 101, 100]

/-- The lookup-key transformation of `run_seller`:
`info.item_name.lower().replace(' ', '_').replace('orokin', 'corrupted')`. -/
def marketKey (name : Str) : Str :=
  pyReplace orokinS corruptedS ((name.map toLowerCh).map (fun c => if c = 32 then 95 else c))

/-- The remote collaborators `run_seller` calls, as response-valued
functions: `item_id` is `get_item_id`'s result (`none` models the `None`
Python returns on a failed lookup), `book` the order book `get_price`
fetches, `createStatus`/`updateStatus` the HTTP status codes of the
create/update requests, and `ordersByItemId` the user's live sell orders
grouped by item id (an absent key is the empty list). -/
structure SellerEnv where
  item_id : Str → Option Str
  book : Str → List BookOrder
  createStatus : Nat
  updateStatus : Nat
  ordersByItemId : Str → List MarketOrder

/-- Observable outcome of processing one sell-list line in `run_seller`. -/
inductive SellerOutcome where
  | skippedNoId
  | skippedNoPrice
  | created
  | updated
  | updateFailed
  | fallbackLookupError
deriving DecidableEq

/-- `create_sell_order` from `seller.py`: on a 200 the order is created; on
any other status the code prints "order already exists", fetches the user's
orders grouped by item id and updates the quantity of the first one for
this item — `orders_by_item_id[item_id][0]` raises an uncaught `KeyError`
when no such order exists (`fallbackLookupError`). The platinum price,
quantity and rank only shape the request payloads. -/
def create_sell_order (env : SellerEnv) (item_id : Str) (platinum quantity : Nat)
    (rank : Option Nat) : SellerOutcome :=
  if env.createStatus = 200 then .created
  else
    match env.ordersByItemId item_id with
    | [] => .fallbackLookupError
    | _ :: _ => if env.updateStatus = 200 then .updated else .updateFailed

/-- One iteration of `run_seller`'s loop: parse the line; if actionable,
rewrite the item name to the marketplace key, default `min_price` and
`quantity`, look up the item id (`if not item_id: continue` skips on `None`
or an empty id), resolve the price (`if not plat_price: continue` skips on
`None` or `0`), then create the sell order. Returns the key used for all
lookups together with the outcome, or `none` for a non-actionable line. -/
def runSellerLine (env : SellerEnv) (raw : Str) : Option (Str × SellerOutcome) :=
  match parse_line raw with
  | none => none
  | some info0 =>
    let key := marketKey info0.item_name
    let mp := info0.min_price.getD DEFAULT_MIN_PRICE
    let qty := info0.quantity.getD 1
    match env.item_id key with
    | none => some (key, .skippedNoId)
    | some iid =>
      if iid = [] then some (key, .skippedNoId)
      else
        match get_price (env.book key) mp with
        | none => some (key, .skippedNoPrice)
        | some p =>
          if p = 0 then some (key, .skippedNoPrice)
          else some (key, create_sell_order env iid p qty info0.rank)

/-! ## Sync driver (`run_syncer`) -/

/-- The dict `get_orders_by_attr(username, "item_name")` produces: an
insertion-ordered map from item name to the (nonempty) list of live orders
with that name. -/
abbrev OrdersDict := List (Str × List MarketOrder)

/-- Python `market_orders.get(name, [])`. -/
def dget (d : OrdersDict) (k : Str) : List MarketOrder :=
  match d.find? (fun p => decide (p.1 = k)) with
  | some p => p.2
  | none => []

/-- The matching loop of `run_syncer`: first index (and order) in the item's
group whose `rank` equals the intent's, scanning in list order. -/
def findRankIdx (r : Option Nat) : List MarketOrder → Option (Nat × MarketOrder)
  | [] => none
  | o :: t =>
    if o.rank = r then some (0, o)
    else (findRankIdx r t).map (fun p => (p.1 + 1, p.2))

/-- `del market_orders[k][i]` followed by
`if not market_orders[k]: del market_orders[k]`. -/
def delOrder (d : OrdersDict) (k : Str) (i : Nat) : OrdersDict :=
  d.foldr
    (fun p acc =>
      if p.1 = k then
        (if p.2.eraseIdx i = [] then acc else (p.1, p.2.eraseIdx i) :: acc)
      else p :: acc) []

/-- The per-line body of `run_syncer`'s loop: inert lines pass through
unchanged; an actionable line is re-emitted through `create_line` with its
quantity overwritten by the matched live order's quantity (the matched
order leaving the pool) or by `0` when no order in the group has the
intent's rank. -/
def syncLine (d : OrdersDict) (line : Str) : Str × OrdersDict :=
  match parse_line line with
  | none => (line, d)
  | some info =>
    match findRankIdx info.rank (dget d info.item_name) with
    | none => (create_line { info with quantity := some 0 }, d)
    | some (i, o) =>
      (create_line { info with quantity := some o.quantity }, delOrder d info.item_name i)

/-- `run_syncer`'s loop over the whole file: emitted lines and final pool. -/
def syncFold (d : OrdersDict) : List Str → List Str × OrdersDict
  | [] => ([], d)
  | line :: rest =>
    let st := syncLine d line
    let res := syncFold st.2 rest
    (st.1 :: res.1, res.2)

/-- The `"\n- NEW ORDERS:\n"` section header. -/
def newOrdersHeader : Str := strToCodes "\n- NEW ORDERS:\n"

/-- A leftover live order rendered as a new sell-list entry:
`create_line(LineInfo(item_name, rank, None, quantity))` — `min_price` is
left unset. -/
def newOrderLine (o : MarketOrder) : Str :=
  create_line ⟨o.item_name, o.rank, none, some o.quantity⟩

/-- The tail `run_syncer` appends after the rewritten lines: the section
header (only when unmatched live orders remain) followed by one new entry
per unmatched order, in pool order. -/
def newOrdersSection (d : OrdersDict) : Str :=
  (if d.isEmpty then [] else newOrdersHeader) ++
    ((d.map Prod.snd).flatten.map newOrderLine).flatten

/-- The full content `run_syncer` writes back to the sell-list file. -/
def syncOutput (d : OrdersDict) (content : Str) : Str :=
  let res := syncFold d (pyLines content)
  res.1.flatten ++ newOrdersSection res.2

/-- The backup path: `SELL_LIST_FILE.rsplit('.', 1)` then
`stem + '_bak' + '.' + ext` (46 = `.`). -/
def bakPathOf (path : Str) : Str :=
  let r := path.reverse
  let ext := (r.takeWhile (fun c => !decide (c = 46))).reverse
  let stem := ((r.dropWhile (fun c => !decide (c = 46))).drop 1).reverse
  stem ++ strToCodes "_bak" ++ 46 :: ext

/-- File-system events of `run_syncer`, in program order: open the backup
for writing (truncating it), append one line to the backup, overwrite the
sell-list file. -/
inductive FsEv where
  | openBak : FsEv
  | wBak : Str → FsEv
  | wOrig : Str → FsEv
deriving DecidableEq

/-- Contents of the two files `run_syncer` touches. -/
structure Fs where
  orig : Str
  bak : Option Str
deriving DecidableEq

/-- Effect of one file-system event. -/
def applyEv (fs : Fs) : FsEv → Fs
  | .openBak => { fs with bak := some [] }
  | .wBak s => { fs with bak := some (fs.bak.getD [] ++ s) }
  | .wOrig s => { fs with orig := s }

/-- The event trace of `run_syncer`: nothing at all when the user has no
live orders (early return); otherwise every line of the original is written
to the backup while it is read, and only afterwards is the original
rewritten. -/
def syncEvents (d : OrdersDict) (content : Str) : List FsEv :=
  if d.isEmpty then []
  else .openBak :: (pyLines content).map FsEv.wBak ++ [.wOrig (syncOutput d content)]

/-- Execute the first `k` events (an exception at event `k` leaves exactly
this state behind). -/
def execN (k : Nat) (fs : Fs) (evs : List FsEv) : Fs := (evs.take k).foldl applyEv fs

/-- The cased-state after scanning `a` (what `titleAux` threads along). -/
def lastAlpha (p : Bool) (a : Str) : Bool := a.foldl (fun _ c => isAlphaCh c) p

/-- A token that sets `rank`: reaches the `elif` after failing `isdigit`. -/
def rTokP (t : Str) : Bool := !pyIsDigit t && isRTokB t

/-- A token that sets `min_price`: fails the two previous tests. -/
def mTokP (t : Str) : Bool := !pyIsDigit t && !isRTokB t && isMinTokB t

/-- `dropLast` applied `n` times. -/
def dropLastN (n : Nat) (l : List Str) : List Str :=
  match n with
  | 0 => l
  | k + 1 => (dropLastN k l).dropLast

/-- Fixture: a live order for `"Item A"` with quantity 5 and no rank. -/
def wOrderA : MarketOrder :=
  ⟨strToCodes "oid", strToCodes "iid", strToCodes "Item A", strToCodes "item_a", 12, none, 5⟩

/-- Fixture: the pool holding only `wOrderA`. -/
def wDictA : OrdersDict := [(strToCodes "Item A", [wOrderA])]

/-- Fixture: the intent parsed from `"+ item a"`. -/
def wInfoA : LineInfo := ⟨strToCodes "Item A", none, none, none⟩

/-- Fixture: the rank-0 order of the spec's two-rank example. -/
def wVitR0 : MarketOrder :=
  ⟨strToCodes "a", strToCodes "ia", strToCodes "Vitality", strToCodes "vitality", 10, some 0, 2⟩

/-- Fixture: the rank-3 order of the spec's two-rank example. -/
def wVitR3 : MarketOrder :=
  ⟨strToCodes "b", strToCodes "ib", strToCodes "Vitality", strToCodes "vitality", 20, some 3, 1⟩

/-- Fixture: pool with the two `"Vitality"` orders. -/
def wDictVit : OrdersDict := [(strToCodes "Vitality", [wVitR0, wVitR3])]

/-- Fixture: a live order with no matching local intent. -/
def wIntense : MarketOrder :=
  ⟨strToCodes "c", strToCodes "ic", strToCodes "Intensify", strToCodes "intensify", 9, none, 4⟩

/-- Fixture: pool holding only `wIntense`. -/
def wDictInt : OrdersDict := [(strToCodes "Intensify", [wIntense])]

/-- Fixture: the spec's pricing example order book (offline seller and buy
order must be ignored). -/
def wBook1 : List BookOrder :=
  [⟨sellS, ingameS, 5⟩, ⟨sellS, strToCodes "offline", 1⟩, ⟨strToCodes "buy", ingameS, 50⟩]

/-- Fixture: an environment whose order book is empty for every item. -/
def wEnvNone : SellerEnv :=
  ⟨fun _ => some (strToCodes "iid"), fun _ => [], 200, 200, fun _ => []⟩

/-- Fixture: an environment whose create request fails with a 500 while the
user has no live order at all — a failure that is not caused by an
already-existing order. -/
def wEnvFail : SellerEnv :=
  ⟨fun _ => some (strToCodes "itemid"), fun _ => [⟨sellS, ingameS, 30⟩], 500, 200, fun _ => []⟩

/-- The rendered ` r<rank>` token (without its leading space). -/
def rTokOf (n : Nat) : Str := 114 :: natDigits n

/-- The rendered ` min<price>` token (without its leading space). -/
def minTokOf (n : Nat) : Str := 109 :: 105 :: 110 :: natDigits n

/-- Zero or one rendered modifier token. -/
def optTok : Option Nat → (Nat → Str) → List Str
  | none, _ => []
  | some n, f => [f n]

/-- The trailing modifier tokens of a well-formed line, in the grammar's
order: `[ r<rank>][ min<price>][ <quantity>]`. -/
def modToks (r m q : Option Nat) : List Str :=
  optTok r rTokOf ++ optTok m minTokOf ++ optTok q natDigits

/-- A well-formed item-name token: nonempty, free of whitespace and
underscores, and matching none of the three modifier patterns. -/
def WfTok (t : Str) : Prop :=
  t ≠ [] ∧ (∀ c ∈ t, isSpace c = false ∧ c ≠ 95) ∧
    pyIsDigit t = false ∧ isRTokB t = false ∧ isMinTokB t = false

/-- A well-formed actionable line per the sell-list grammar
`<indent><marker> <Item Name>[ r<rank>][ min<price>][ <quantity>]`:
indentation, the `+` marker, space-separated name tokens, then the optional
modifiers, and a trailing newline. -/
def mkLine (ind : Nat) (toks : List Str) (r m q : Option Nat) : Str :=
  List.replicate ind 32 ++ (43 :: 32 :: (unwords (toks ++ modToks r m q) ++ [10]))

/-- Decidability of token well-formedness, for concrete witnesses. -/
instance (t : Str) : Decidable (WfTok t) := by
  unfold WfTok
  infer_instance

example : parse_line (strToCodes "  + Ash Prime Set min15 2\n") =
    some ⟨strToCodes "Ash Prime Set", none, some 15, some 2⟩ := by decide

example : parse_line (strToCodes "+ vitality r3") =
    some ⟨strToCodes "Vitality", some 3, none, none⟩ := by decide

example : parse_line (strToCodes "  comment") = none := by decide

example : create_line ⟨strToCodes "Ash Prime Set", none, some 15, some 2⟩ =
    strToCodes "  + Ash Prime Set min15 2\n" := by decide

example : create_line ⟨strToCodes "Vitality", some 3, none, some 0⟩ =
    strToCodes "    Vitality r3 [OUT OF STOCK]\n" := by decide

lemma orokinS_eq : orokinS = strToCodes "orokin" := by decide

lemma corruptedS_eq : corruptedS = strToCodes "corrupted" := by decide


/-! ## Lemmas on the string primitives -/

lemma natDigitsGo_irrel : ∀ n f1 f2, n ≤ f1 → n ≤ f2 → natDigitsGo f1 n = natDigitsGo f2 n := by
  intro n
  induction n using Nat.strong_induction_on with
  | _ n ih =>
    intro f1 f2 h1 h2
    match f1, f2 with
    | 0, 0 => rfl
    | 0, b + 1 =>
      have hn : n = 0 := by omega
      subst hn; simp [natDigitsGo]
    | a + 1, 0 =>
      have hn : n = 0 := by omega
      subst hn; simp [natDigitsGo]
    | a + 1, b + 1 =>
      simp only [natDigitsGo]
      by_cases h : n < 10
      · simp [h]
      · simp only [h, if_false]
        have := ih (n / 10) (by omega) a b (by omega) (by omega)
        rw [this]

lemma natDigits_lt {n : Nat} (h : n < 10) : natDigits n = [48 + n] := by
  unfold natDigits
  match n, h with
  | 0, _ => rfl
  | m + 1, h => simp [natDigitsGo, h]

lemma natDigits_ge {n : Nat} (h : 10 ≤ n) : natDigits n = natDigits (n / 10) ++ [48 + n % 10] := by
  unfold natDigits
  match n, h with
  | m + 1, h =>
    simp only [natDigitsGo, Nat.not_lt.mpr h, if_false]
    rw [natDigitsGo_irrel ((m + 1) / 10) m ((m + 1) / 10) (by omega) (by omega)]

lemma natDigits_ne_nil (n : Nat) : natDigits n ≠ [] := by
  by_cases h : n < 10
  · rw [natDigits_lt h]; simp
  · rw [natDigits_ge (by omega)]; simp

lemma natDigits_all_digit (n : Nat) : (natDigits n).all isDigitCh = true := by
  induction n using Nat.strong_induction_on with
  | _ n ih =>
    by_cases h : n < 10
    · rw [natDigits_lt h]; simp [isDigitCh]; omega
    · rw [natDigits_ge (by omega)]
      simp only [List.all_append]
      rw [ih (n / 10) (by omega)]
      simp [isDigitCh]; omega

lemma pyInt_append_one (a : Str) (c : Nat) : pyInt (a ++ [c]) = 10 * pyInt a + (c - 48) := by
  simp [pyInt, List.foldl_append]

lemma pyInt_natDigits (n : Nat) : pyInt (natDigits n) = n := by
  induction n using Nat.strong_induction_on with
  | _ n ih =>
    by_cases h : n < 10
    · rw [natDigits_lt h]; simp [pyInt]
    · rw [natDigits_ge (by omega), pyInt_append_one, ih (n / 10) (by omega)]
      omega

lemma splitWsGo_word : ∀ (w : Str), w.all (fun c => !isSpace c) = true →
    ∀ acc t, splitWsGo acc (w ++ t) = splitWsGo (w.reverse ++ acc) t := by
  intro w
  induction w with
  | nil => intro _ acc t; simp
  | cons c w' ih =>
    intro hall acc t
    simp only [List.all_cons, Bool.and_eq_true, Bool.not_eq_true'] at hall
    simp only [List.cons_append, splitWsGo, hall.1, Bool.false_eq_true, if_false, List.append_eq]
    rw [ih hall.2]
    simp

lemma splitWs_single (t : Str) (hne : t ≠ []) (hall : t.all (fun c => !isSpace c) = true) :
    splitWs t = [t] := by
  have h0 : splitWs t = splitWsGo [] (t ++ []) := by simp [splitWs]
  rw [h0, splitWsGo_word t hall]
  simp [splitWsGo, hne]

lemma splitWs_unwords : ∀ toks : List Str,
    (∀ t ∈ toks, t ≠ [] ∧ t.all (fun c => !isSpace c) = true) →
    splitWs (unwords toks) = toks := by
  intro toks
  induction toks with
  | nil => intro _; rfl
  | cons t rest ih =>
    intro h
    match rest with
    | [] =>
      have := h t (by simp)
      exact splitWs_single t this.1 this.2
    | u :: rest' =>
      have ht := h t (by simp)
      simp only [unwords, splitWs]
      rw [splitWsGo_word t ht.2 [] (32 :: unwords (u :: rest'))]
      have hne : t.reverse ++ [] ≠ [] := by simp [ht.1]
      simp only [List.append_nil, splitWsGo]
      rw [if_pos (by decide)]
      rw [if_neg (by simpa using ht.1)]
      simp only [List.reverse_reverse]
      have := ih (fun x hx => h x (by simp [hx]))
      simp only [splitWs] at this
      rw [this]

lemma lstrip_replicate (n : Nat) (x : Str) :
    lstrip (List.replicate n 32 ++ x) = lstrip x := by
  induction n with
  | zero => simp
  | succ k ih => simpa [lstrip, List.replicate_succ, isSpace] using ih

lemma lstrip_cons_nonspace {c : Nat} (x : Str) (h : isSpace c = false) :
    lstrip (c :: x) = c :: x := by
  simp [lstrip, List.dropWhile_cons, h]

lemma rstrip_concat_space {c : Nat} (x : Str) (h : isSpace c = true) :
    rstrip (x ++ [c]) = rstrip x := by
  simp [rstrip, List.reverse_append, List.dropWhile_cons, h]

lemma rstrip_concat_nonspace {c : Nat} (x : Str) (h : isSpace c = false) :
    rstrip (x ++ [c]) = x ++ [c] := by
  simp [rstrip, List.reverse_append, List.dropWhile_cons, h]

lemma lastAlpha_cons (p : Bool) (c : Nat) (t : Str) :
    lastAlpha p (c :: t) = lastAlpha (isAlphaCh c) t := rfl

lemma lastAlpha_append (p : Bool) (a b : Str) :
    lastAlpha p (a ++ b) = lastAlpha (lastAlpha p a) b := by
  simp [lastAlpha, List.foldl_append]

lemma titleAux_append : ∀ (a : Str) (p : Bool) (b : Str),
    titleAux p (a ++ b) = titleAux p a ++ titleAux (lastAlpha p a) b := by
  intro a
  induction a with
  | nil => intro p b; simp [titleAux, lastAlpha]
  | cons c t ih =>
    intro p b
    simp only [List.cons_append, titleAux, List.append_eq]
    rw [ih, lastAlpha_cons]

lemma titleMap_idem (p : Bool) (c : Nat) : titleMap p (titleMap p c) = titleMap p c := by
  simp only [titleMap, isAlphaCh, toLowerCh, toUpperCh]
  split_ifs <;> simp_all <;> omega

lemma isAlphaCh_titleMap (p : Bool) (c : Nat) : isAlphaCh (titleMap p c) = isAlphaCh c := by
  simp only [titleMap, isAlphaCh, toLowerCh, toUpperCh, decide_eq_decide]
  split_ifs <;> simp_all <;> omega

lemma isDigitCh_titleMap (p : Bool) (c : Nat) : isDigitCh (titleMap p c) = isDigitCh c := by
  simp only [titleMap, isAlphaCh, isDigitCh, toLowerCh, toUpperCh, decide_eq_decide]
  split_ifs <;> simp_all <;> omega

lemma isSpace_titleMap (p : Bool) (c : Nat) : isSpace (titleMap p c) = isSpace c := by
  simp only [titleMap, isAlphaCh, isSpace, toLowerCh, toUpperCh, decide_eq_decide]
  split_ifs <;> simp_all <;> omega

lemma und_titleMap (p : Bool) (c : Nat) : (decide (titleMap p c = 95) : Bool) = decide (c = 95) := by
  simp only [titleMap, isAlphaCh, toLowerCh, toUpperCh, decide_eq_decide]
  split_ifs <;> simp_all <;> omega

lemma titleMap_false_notR (c : Nat) : titleMap false c ≠ 114 ∧ titleMap false c ≠ 109 := by
  simp only [titleMap, isAlphaCh, toLowerCh, toUpperCh]
  split_ifs <;> simp_all <;> omega

lemma titleAux_idem : ∀ (s : Str) (p : Bool), titleAux p (titleAux p s) = titleAux p s := by
  intro s
  induction s with
  | nil => intro p; rfl
  | cons c t ih =>
    intro p
    simp only [titleAux, isAlphaCh_titleMap, titleMap_idem, ih]

lemma titleAux_length (p : Bool) (s : Str) : (titleAux p s).length = s.length := by
  induction s generalizing p with
  | nil => rfl
  | cons c t ih => simp [titleAux, ih]

lemma titleAux_all (Q : Nat → Bool) (hQ : ∀ p c, Q (titleMap p c) = Q c) :
    ∀ (s : Str) (p : Bool), (titleAux p s).all Q = s.all Q := by
  intro s
  induction s with
  | nil => intro p; rfl
  | cons c t ih => intro p; simp [titleAux, hQ, ih]

lemma pyTitle_unwords : ∀ toks : List Str, pyTitle (unwords toks) = unwords (toks.map pyTitle) := by
  intro toks
  induction toks with
  | nil => rfl
  | cons t rest ih =>
    match rest with
    | [] => rfl
    | u :: rest' =>
      simp only [unwords, List.map_cons, pyTitle]
      rw [show (32 :: unwords (u :: rest')) = [32] ++ unwords (u :: rest') from rfl]
      rw [← List.append_assoc, titleAux_append, titleAux_append]
      have h32 : titleAux (lastAlpha false t) [32] = [32] := by
        simp [titleAux, titleMap, isAlphaCh]
      have hstate : lastAlpha false (t ++ [32]) = false := by
        rw [lastAlpha_append]
        simp [lastAlpha, isAlphaCh]
      rw [h32, hstate]
      have hih := ih
      simp only [pyTitle] at hih
      rw [hih]
      simp [unwords, List.map_cons, pyTitle]

lemma unwords_all (Q : Nat → Bool) (hsp : Q 32 = true) : ∀ toks : List Str,
    (∀ t ∈ toks, t.all Q = true) → (unwords toks).all Q = true := by
  intro toks
  induction toks with
  | nil => intro _; rfl
  | cons t rest ih =>
    intro h
    match rest with
    | [] => exact h t (by simp)
    | u :: rest' =>
      simp only [unwords, List.all_append, List.all_cons, Bool.and_eq_true]
      exact ⟨by simpa using h t (by simp), hsp, ih (fun x hx => h x (by simp [hx]))⟩

/-! ## Characterizing the parser's token classification

The loop `for item in reversed(linelist)` visits tokens right to left and
each match overwrites the field, so the surviving value comes from the
leftmost matching token; the `elif` chain makes the three patterns mutually
exclusive on a given token. -/

lemma foldl_classify_eq : ∀ (toks : List Str) (init : LineInfo),
    toks.reverse.foldl classify init =
      { item_name := init.item_name
        rank := match toks.find? rTokP with
          | some t => some (pyInt (t.drop 1))
          | none => init.rank
        min_price := match toks.find? mTokP with
          | some t => some (pyInt (t.drop 3))
          | none => init.min_price
        quantity := match toks.find? pyIsDigit with
          | some t => some (pyInt t)
          | none => init.quantity } := by
  intro toks
  induction toks with
  | nil => intro init; rfl
  | cons t rest ih =>
    intro init
    rw [List.reverse_cons, List.foldl_append, ih init]
    by_cases hd : pyIsDigit t
    · simp [classify, hd, List.find?_cons, rTokP, mTokP]
    · by_cases hr : isRTokB t
      · simp [classify, hd, hr, List.find?_cons, rTokP, mTokP]
      · by_cases hm : isMinTokB t
        · simp [classify, hd, hr, hm, List.find?_cons, rTokP, mTokP]
        · simp [classify, hd, hr, hm, List.find?_cons, rTokP, mTokP]

/-- C1 (amended): on an actionable line the parser scans the whole reversed
token list — it does not stop at the first non-matching token — so each of
`quantity`/`rank`/`min_price` ends up holding the value of the leftmost
token matching its pattern (later, righter matches are overwritten), and
afterwards one token is removed from the end of the token list for each
field that was set, regardless of which tokens were actually recognized;
the remaining tokens are joined and title-cased as `item_name`. -/
theorem c1_reverse_scan_classification (raw : Str)
    (h : [43].isPrefixOf (pyStrip raw) = true) :
    ∃ info, parse_line raw = some info ∧
      (let toks := splitWs (pyStrip ((pyStrip raw).drop 1))
       info.quantity = (toks.find? pyIsDigit).map pyInt ∧
       info.rank = (toks.find? rTokP).map (fun t => pyInt (t.drop 1)) ∧
       info.min_price = (toks.find? mTokP).map (fun t => pyInt (t.drop 3)) ∧
       info.item_name = pyTitle (unwords (dropLastN
         (((toks.find? pyIsDigit).elim 0 fun _ => 1) +
          ((toks.find? rTokP).elim 0 fun _ => 1) +
          ((toks.find? mTokP).elim 0 fun _ => 1)) toks))) := by
  simp only [parse_line, h, if_true]
  refine ⟨_, rfl, ?_⟩
  rw [foldl_classify_eq]
  set toks := splitWs (pyStrip ((pyStrip raw).drop 1)) with htoks
  rcases hq : toks.find? pyIsDigit with _ | t1 <;>
    rcases hr : toks.find? rTokP with _ | t2 <;>
      rcases hm : toks.find? mTokP with _ | t3 <;>
        simp [hq, hr, hm, dropLastN]

/-- C1 counterexample: on `"+ 5 foo r3"` the claimed backward scan would
stop at `"foo"`, classify only `r3`, and leave item name `"5 Foo"` with no
quantity; the code instead also classifies the `"5"` before the stopper as
quantity and then removes the two trailing tokens `"r3"` and `"foo"`,
leaving item name `"5"`. -/
theorem c1_counterexample :
    parse_line (strToCodes "+ 5 foo r3") =
      some ⟨strToCodes "5", some 3, none, some 5⟩ := by decide

/-- Witness for C1 at the line `"+ foo r2 min8 4"`. -/
theorem c1_witness :
    ([43].isPrefixOf (pyStrip (strToCodes "+ foo r2 min8 4")) = true) ∧
    (∃ info, parse_line (strToCodes "+ foo r2 min8 4") = some info ∧
      (let toks := splitWs (pyStrip ((pyStrip (strToCodes "+ foo r2 min8 4")).drop 1))
       info.quantity = (toks.find? pyIsDigit).map pyInt ∧
       info.rank = (toks.find? rTokP).map (fun t => pyInt (t.drop 1)) ∧
       info.min_price = (toks.find? mTokP).map (fun t => pyInt (t.drop 3)) ∧
       info.item_name = pyTitle (unwords (dropLastN
         (((toks.find? pyIsDigit).elim 0 fun _ => 1) +
          ((toks.find? rTokP).elim 0 fun _ => 1) +
          ((toks.find? mTokP).elim 0 fun _ => 1)) toks)))) :=
  ⟨by decide, c1_reverse_scan_classification _ (by decide)⟩

/-- C8 (code bug, evaluation at the failing input): a line holding only the
action marker is not rejected — `parse_line` silently returns an intent
whose `item_name` is empty, violating the spec's invariant that no
actionable intent has an empty name. -/
theorem c8_marker_only_line :
    parse_line (strToCodes "+") = some ⟨[], none, none, none⟩ := by decide

lemma rstrip_prefix_self (s : Str) : rstrip s <+: s := by
  have h := List.dropWhile_suffix (l := s.reverse) isSpace
  have h2 := List.reverse_prefix.mpr h
  simpa using h2

/-- C9: a line that does not begin with the `+` marker (code 43) after
stripping leading whitespace is inert: `parse_line` returns `none`, and the
sync loop emits the line byte-for-byte unchanged, leaving the order pool
untouched. -/
theorem c9_inert_lines (line : Str)
    (h : ¬ [43].isPrefixOf (lstrip line) = true) :
    parse_line line = none ∧ ∀ d : OrdersDict, syncLine d line = (line, d) := by
  have hps : ¬ [43].isPrefixOf (pyStrip line) = true := by
    intro hc
    apply h
    have h1 : ([43] : Str) <+: pyStrip line := by
      simpa [ List.isPrefixOf_iff_prefix] using hc
    have h2 : pyStrip line <+: lstrip line := rstrip_prefix_self (lstrip line)
    have h3 := h1.trans h2
    simpa [ List.isPrefixOf_iff_prefix] using h3
  refine ⟨by simp [parse_line, hps], fun d => by simp [syncLine, parse_line, hps]⟩

/-- Witness for C9 at the line `"  comment"`. -/
theorem c9_witness :
    (¬ [43].isPrefixOf (lstrip (strToCodes "  comment")) = true) ∧
    (parse_line (strToCodes "  comment") = none ∧
      ∀ d : OrdersDict, syncLine d (strToCodes "  comment") = (strToCodes "  comment", d)) :=
  ⟨by decide, c9_inert_lines _ (by decide)⟩

/-! ## Reconciliation lemmas -/

lemma delOrder_cons (p : Str × List MarketOrder) (d : OrdersDict) (k : Str) (i : Nat) :
    delOrder (p :: d) k i =
      if p.1 = k then
        (if p.2.eraseIdx i = [] then delOrder d k i else (p.1, p.2.eraseIdx i) :: delOrder d k i)
      else p :: delOrder d k i := rfl

lemma findRankIdx_find? (r : Option Nat) : ∀ l : List MarketOrder,
    (findRankIdx r l).map Prod.snd = l.find? (fun o => decide (o.rank = r)) := by
  intro l
  induction l with
  | nil => rfl
  | cons o t ih =>
    by_cases h : o.rank = r
    · simp [findRankIdx, h, List.find?_cons]
    · simp only [findRankIdx, h, if_neg, List.find?_cons]
      simp only [decide_eq_true_eq, h, if_false]
      rw [← ih]
      cases findRankIdx r t <;> simp

lemma dget_cons_eq {p : Str × List MarketOrder} {k : Str} (d : OrdersDict) (h : p.1 = k) :
    dget (p :: d) k = p.2 := by
  simp only [dget]
  rw [List.find?_cons_of_pos _ (by simpa using h)]

lemma dget_cons_ne {p : Str × List MarketOrder} {k : Str} (d : OrdersDict) (h : ¬ p.1 = k) :
    dget (p :: d) k = dget d k := by
  simp only [dget]
  rw [List.find?_cons_of_neg _ (by simpa using h)]

lemma dget_not_mem (k : Str) : ∀ d : OrdersDict, k ∉ d.map Prod.fst → dget d k = [] := by
  intro d
  induction d with
  | nil => intro _; rfl
  | cons p rest ih =>
    intro h
    simp only [List.map_cons, List.mem_cons] at h
    push_neg at h
    rw [dget_cons_ne rest (fun hc => h.1 hc.symm)]
    exact ih h.2

lemma delOrder_keys (k : Str) (i : Nat) : ∀ d : OrdersDict, ∀ x,
    x ∈ (delOrder d k i).map Prod.fst → x ∈ d.map Prod.fst := by
  intro d
  induction d with
  | nil => simp [delOrder]
  | cons p rest ih =>
    intro x hx
    rw [delOrder_cons] at hx
    by_cases h : p.1 = k
    · rw [if_pos h] at hx
      by_cases h2 : p.2.eraseIdx i = []
      · rw [if_pos h2] at hx
        exact List.mem_cons_of_mem _ (ih x hx)
      · rw [if_neg h2] at hx
        simp only [List.map_cons, List.mem_cons] at hx ⊢
        rcases hx with hc | hc
        · exact Or.inl hc
        · exact Or.inr (ih x hc)
    · rw [if_neg h] at hx
      simp only [List.map_cons, List.mem_cons] at hx ⊢
      rcases hx with hc | hc
      · exact Or.inl hc
      · exact Or.inr (ih x hc)

lemma dget_delOrder (k : Str) (i : Nat) : ∀ d : OrdersDict, (d.map Prod.fst).Nodup →
    dget (delOrder d k i) k = (dget d k).eraseIdx i := by
  intro d
  induction d with
  | nil => intro _; rfl
  | cons p rest ih =>
    intro hnd
    simp only [List.map_cons, List.nodup_cons] at hnd
    rw [delOrder_cons]
    by_cases h : p.1 = k
    · rw [if_pos h, dget_cons_eq rest h]
      have hk : k ∉ rest.map Prod.fst := h ▸ hnd.1
      by_cases h2 : p.2.eraseIdx i = []
      · rw [if_pos h2, h2]
        exact dget_not_mem k _ (fun hc => hk (delOrder_keys k i rest _ hc))
      · rw [if_neg h2]
        exact dget_cons_eq _ h
    · rw [if_neg h, dget_cons_ne _ h, dget_cons_ne _ h]
      exact ih hnd.2

lemma infix_of_mem_flatten {x : Str} {L : List Str} (h : x ∈ L) : x <:+: L.flatten := by
  obtain ⟨a, b, rfl⟩ := List.append_of_mem h
  refine ⟨a.flatten, b.flatten, ?_⟩
  simp [List.flatten_append]

lemma infix_append_left {pat B : Str} (A : Str) (h : pat <:+: B) : pat <:+: A ++ B := by
  obtain ⟨s, t, rfl⟩ := h
  exact ⟨A ++ s, t, by simp⟩

lemma create_line_zero_out_of_stock (info : LineInfo) :
    outOfStockS <:+: create_line { info with quantity := some 0 } := by
  refine ⟨List.replicate SELL_LIST_INDENT 32 ++ [32, 32] ++
    (info.item_name.map (fun c => if c = 95 then 32 else c)) ++
    (match info.rank with | some r => 32 :: 114 :: natDigits r | none => []) ++
    (match info.min_price with | some m => 32 :: 109 :: 105 :: 110 :: natDigits m | none => []),
    [10], ?_⟩
  simp [create_line]

/-- C2: for every actionable line Sync processes, the re-emitted line is the
intent re-rendered with only its quantity replaced — by the matched live
order's quantity if the item-name group holds an order of the intent's
rank, and by 0 (rendered as the out-of-stock marker) otherwise; all other
fields of the intent are carried over unchanged. -/
theorem c2_sync_quantities (d : OrdersDict) (line : Str) (info : LineInfo)
    (h : parse_line line = some info) :
    ((dget d info.item_name).find? (fun o => decide (o.rank = info.rank)) = none →
      (syncLine d line).1 = create_line { info with quantity := some 0 } ∧
      outOfStockS <:+: (syncLine d line).1) ∧
    (∀ o, (dget d info.item_name).find? (fun o => decide (o.rank = info.rank)) = some o →
      (syncLine d line).1 = create_line { info with quantity := some o.quantity }) := by
  constructor
  · intro hn
    have hb := findRankIdx_find? info.rank (dget d info.item_name)
    rw [hn] at hb
    have hfr : findRankIdx info.rank (dget d info.item_name) = none := by
      cases hfi : findRankIdx info.rank (dget d info.item_name) with
      | none => rfl
      | some p => rw [hfi] at hb; simp at hb
    refine ⟨by simp [syncLine, h, hfr], ?_⟩
    have : (syncLine d line).1 = create_line { info with quantity := some 0 } := by
      simp [syncLine, h, hfr]
    rw [this]
    exact create_line_zero_out_of_stock info
  · intro o ho
    have hb := findRankIdx_find? info.rank (dget d info.item_name)
    rw [ho] at hb
    cases hfi : findRankIdx info.rank (dget d info.item_name) with
    | none => rw [hfi] at hb; simp at hb
    | some p =>
      obtain ⟨i, o2⟩ := p
      rw [hfi] at hb
      have hb2 : o2 = o := by simpa using hb
      subst hb2
      simp [syncLine, h, hfi]

/-- Witness for C2: the spec's example — intent `"Item A"` (rank `None`)
against a live order of quantity 5 is re-emitted with quantity 5; against
an empty pool it is re-emitted out of stock. -/
theorem c2_witness :
    parse_line (strToCodes "+ item a") = some wInfoA ∧
    (syncLine wDictA (strToCodes "+ item a")).1 =
      create_line ⟨strToCodes "Item A", none, none, some 5⟩ ∧
    (syncLine [] (strToCodes "+ item a")).1 =
      create_line ⟨strToCodes "Item A", none, none, some 0⟩ := by
  refine ⟨by decide, ?_, ?_⟩
  · exact (c2_sync_quantities wDictA (strToCodes "+ item a") wInfoA (by decide)).2
      wOrderA (by decide)
  · exact ((c2_sync_quantities [] (strToCodes "+ item a") wInfoA (by decide)).1 (by decide)).1

/-- C3: Sync matches each intent with the first live order of its item-name
group whose rank is exactly equal (both `None` included): the matched order
is removed from the pool, so a duplicate intent line can only match the
remaining orders; and every live order still unmatched at the end of the
file is appended, after the section header, as a new entry rendered with
`min_price` unset, the whole section sitting at the end of the rewritten
file. -/
theorem c3_match_remove_append :
    (∀ (d : OrdersDict) (line : Str) (info : LineInfo) (i : Nat) (o : MarketOrder),
      (d.map Prod.fst).Nodup →
      parse_line line = some info →
      findRankIdx info.rank (dget d info.item_name) = some (i, o) →
      (dget d info.item_name).find? (fun x => decide (x.rank = info.rank)) = some o ∧
      dget (syncLine d line).2 info.item_name = (dget d info.item_name).eraseIdx i) ∧
    (∀ (d : OrdersDict) (content : Str) (o : MarketOrder),
      o ∈ ((syncFold d (pyLines content)).2.map Prod.snd).flatten →
      newOrdersHeader <+: newOrdersSection (syncFold d (pyLines content)).2 ∧
      newOrderLine o <:+: newOrdersSection (syncFold d (pyLines content)).2 ∧
      newOrdersSection (syncFold d (pyLines content)).2 <:+ syncOutput d content) := by
  constructor
  · intro d line info i o hnd h hfi
    constructor
    · have hb := findRankIdx_find? info.rank (dget d info.item_name)
      rw [hfi] at hb
      exact hb.symm
    · have hs : (syncLine d line).2 = delOrder d info.item_name i := by
        simp [syncLine, h, hfi]
      rw [hs]
      exact dget_delOrder info.item_name i d hnd
  · intro d content o ho
    set d2 := (syncFold d (pyLines content)).2 with hd2
    have hne : ¬ d2.isEmpty = true := by
      intro hc
      rw [List.isEmpty_iff] at hc
      rw [hc] at ho
      simp at ho
    refine ⟨?_, ?_, ?_⟩
    · rw [newOrdersSection, if_neg hne]
      exact ⟨(d2.map Prod.snd).flatten.map newOrderLine |>.flatten, rfl⟩
    · rw [newOrdersSection, if_neg hne]
      exact infix_append_left _ (infix_of_mem_flatten (List.mem_map_of_mem newOrderLine ho))
    · exact ⟨(syncFold d (pyLines content)).1.flatten, rfl⟩

/-- Witness for C3: a pool with two ranks of the same mod; the intent at
rank 3 matches exactly the rank-3 order (first equal-rank); a leftover
order for another item lands in the new-orders section with `min_price`
unset. -/
theorem c3_witness :
    ((wDictVit.map Prod.fst).Nodup ∧
      (dget wDictVit (strToCodes "Vitality")).find? (fun x => decide (x.rank = some 3)) =
        some wVitR3) ∧
    newOrderLine wIntense <:+: newOrdersSection (syncFold wDictInt (pyLines [])).2 := by
  refine ⟨⟨by decide, ?_⟩, ?_⟩
  · exact (c3_match_remove_append.1 wDictVit (strToCodes "+ vitality r3")
      ⟨strToCodes "Vitality", some 3, none, none⟩ 1 wVitR3
      (by decide) (by decide) (by decide)).1
  · exact ((c3_match_remove_append.2 wDictInt [] wIntense (by decide)).2).1

/-! ## Pricing lemmas -/

lemma foldl_min_le_init (l : List BookOrder) (a : Nat) :
    l.foldl (fun m x => Nat.min m x.platinum) a ≤ a := by
  induction l generalizing a with
  | nil => simp
  | cons o t ih => exact le_trans (ih (Nat.min a o.platinum)) (Nat.min_le_left _ _)

lemma foldl_min_le_mem (l : List BookOrder) (a : Nat) :
    ∀ x ∈ l, l.foldl (fun m y => Nat.min m y.platinum) a ≤ x.platinum := by
  induction l generalizing a with
  | nil => simp
  | cons o t ih =>
    intro x hx
    rcases List.mem_cons.mp hx with hx | hx
    · subst hx
      exact le_trans (foldl_min_le_init t (Nat.min a x.platinum)) (Nat.min_le_right _ _)
    · exact ih (Nat.min a o.platinum) x hx

lemma foldl_min_mem (l : List BookOrder) (a : Nat) :
    l.foldl (fun m y => Nat.min m y.platinum) a = a ∨
      ∃ x ∈ l, l.foldl (fun m y => Nat.min m y.platinum) a = x.platinum := by
  induction l generalizing a with
  | nil => simp
  | cons o t ih =>
    rcases ih (Nat.min a o.platinum) with h | ⟨x, hx, h⟩
    · rcases Nat.le_total a o.platinum with hle | hle
      · left
        simpa [Nat.min_eq_left hle] using h
      · right
        exact ⟨o, by simp, by simpa [Nat.min_eq_right hle] using h⟩
    · right
      exact ⟨x, by simp [hx], h⟩

/-- C4: the pricing resolver considers only orders that are sell orders from
in-game users — the result is invariant under discarding all other orders —
and when at least one such order exists it returns `max m min_price` where
`m` is the least platinum among them (so never below `min_price`); with no
such order it returns no price, and `run_seller` then skips the item. -/
theorem c4_price_floor_and_skip :
    (∀ (orders : List BookOrder) (mp : Nat),
      (orders.filter isIngameSell = [] → get_price orders mp = none) ∧
      (orders.filter isIngameSell ≠ [] →
        ∃ p m, get_price orders mp = some p ∧ p = max m mp ∧ mp ≤ p ∧
          (∃ o ∈ orders.filter isIngameSell, o.platinum = m) ∧
          (∀ o ∈ orders.filter isIngameSell, m ≤ o.platinum)) ∧
      get_price (orders.filter isIngameSell) mp = get_price orders mp) ∧
    (∀ (env : SellerEnv) (line : Str) (info : LineInfo) (iid : Str),
      parse_line line = some info →
      env.item_id (marketKey info.item_name) = some iid → iid ≠ [] →
      get_price (env.book (marketKey info.item_name)) (info.min_price.getD DEFAULT_MIN_PRICE) =
        none →
      runSellerLine env line = some (marketKey info.item_name, .skippedNoPrice)) := by
  constructor
  · intro orders mp
    refine ⟨fun h => by simp [get_price, h], fun h => ?_, ?_⟩
    · cases hf : orders.filter isIngameSell with
      | nil => exact absurd hf h
      | cons o rest =>
        refine ⟨max (rest.foldl (fun a x => Nat.min a x.platinum) o.platinum) mp,
          rest.foldl (fun a x => Nat.min a x.platinum) o.platinum,
          by simp [get_price, hf], rfl, le_max_right _ _, ?_, ?_⟩
        · rcases foldl_min_mem rest o.platinum with hm | ⟨x, hx, hm⟩
          · exact ⟨o, by simp, hm.symm⟩
          · exact ⟨x, by simp [hx], hm.symm⟩
        · intro x hx
          rcases List.mem_cons.mp hx with hx | hx
          · subst hx; exact foldl_min_le_init rest x.platinum
          · exact foldl_min_le_mem rest o.platinum x hx
    · simp [get_price, List.filter_filter]
  · intro env line info iid hp hid hne hgp
    simp [runSellerLine, hp, hid, hne, hgp]

/-- Witness for C4: on the spec's example book with floor 9 the filtered set
is nonempty and the returned price is the floor; with an empty book the
seller skips the line. -/
theorem c4_witness :
    (wBook1.filter isIngameSell ≠ [] ∧
      (∃ p m, get_price wBook1 9 = some p ∧ p = max m 9 ∧ 9 ≤ p ∧
        (∃ o ∈ wBook1.filter isIngameSell, o.platinum = m) ∧
        (∀ o ∈ wBook1.filter isIngameSell, m ≤ o.platinum))) ∧
    runSellerLine wEnvNone (strToCodes "+ intensify") =
      some (marketKey (strToCodes "Intensify"), .skippedNoPrice) :=
  ⟨⟨by decide, ((c4_price_floor_and_skip.1 wBook1 9).2.1 (by decide))⟩,
    c4_price_floor_and_skip.2 wEnvNone (strToCodes "+ intensify")
      ⟨strToCodes "Intensify", none, none, none⟩ (strToCodes "iid")
      (by decide) (by decide) (by decide) (by decide)⟩

/-! ## Seller fallback behavior -/

lemma create_sell_order_ne_created (env : SellerEnv) (iid : Str) (p q : Nat) (r : Option Nat)
    (hc : env.createStatus ≠ 200) : create_sell_order env iid p q r ≠ .created := by
  unfold create_sell_order
  rw [if_neg hc]
  cases env.ordersByItemId iid with
  | nil => simp
  | cons a t => by_cases hu : env.updateStatus = 200 <;> simp [hu]

/-- C5 (amended): the code does not distinguish failure causes — any
non-success response to the create request sends it into the fallback
path: it looks up the user's live orders by item id and, when one exists
for this item, updates its quantity (a failed update is merely reported);
when none exists the lookup raises an uncaught error, aborting the run. A
successful create never enters the fallback, and every skip the driver
performs happens before the create request. -/
theorem c5_any_failure_falls_back :
    (∀ (env : SellerEnv) (iid : Str) (p q : Nat) (r : Option Nat),
      (env.createStatus = 200 → create_sell_order env iid p q r = .created) ∧
      (env.createStatus ≠ 200 →
        create_sell_order env iid p q r ≠ .created ∧
        (create_sell_order env iid p q r = .fallbackLookupError ↔ env.ordersByItemId iid = []) ∧
        (env.ordersByItemId iid ≠ [] →
          (create_sell_order env iid p q r = .updated ↔ env.updateStatus = 200)))) ∧
    (∀ (env : SellerEnv) (line key : Str) (out : SellerOutcome),
      runSellerLine env line = some (key, out) → env.createStatus ≠ 200 → out ≠ .created) := by
  constructor
  · intro env iid p q r
    refine ⟨fun h => by simp [create_sell_order, h], fun h => ?_⟩
    refine ⟨create_sell_order_ne_created env iid p q r h, ?_, ?_⟩
    · unfold create_sell_order
      rw [if_neg h]
      cases env.ordersByItemId iid with
      | nil => simp
      | cons a t => by_cases hu : env.updateStatus = 200 <;> simp [hu]
    · intro hne
      unfold create_sell_order
      rw [if_neg h]
      cases henv : env.ordersByItemId iid with
      | nil => exact absurd henv hne
      | cons a t => by_cases hu : env.updateStatus = 200 <;> simp [hu]
  · intro env line key out h hc
    rcases hp : parse_line line with _ | info
    · rw [runSellerLine, hp] at h; exact absurd h (by simp)
    · rw [runSellerLine, hp] at h
      dsimp only at h
      rcases hid : env.item_id (marketKey info.item_name) with _ | iid
      · rw [hid] at h
        dsimp only at h
        simp only [Option.some_inj, Prod.mk.injEq] at h
        rw [← h.2]
        simp
      · rw [hid] at h
        dsimp only at h
        by_cases hnil : iid = []
        · rw [if_pos hnil] at h
          simp only [Option.some_inj, Prod.mk.injEq] at h
          rw [← h.2]
          simp
        · rw [if_neg hnil] at h
          rcases hgp : get_price (env.book (marketKey info.item_name))
              (info.min_price.getD DEFAULT_MIN_PRICE) with _ | p
          · rw [hgp] at h
            dsimp only at h
            simp only [Option.some_inj, Prod.mk.injEq] at h
            rw [← h.2]
            simp
          · rw [hgp] at h
            dsimp only at h
            by_cases hz : p = 0
            · rw [if_pos hz] at h
              simp only [Option.some_inj, Prod.mk.injEq] at h
              rw [← h.2]
              simp
            · rw [if_neg hz] at h
              simp only [Option.some_inj, Prod.mk.injEq] at h
              rw [← h.2]
              exact create_sell_order_ne_created env iid _ _ _ hc

/-- C5 counterexample: under `wEnvFail` the creation failure is not caused
by an existing order (the user has none), yet the driver still enters the
fallback and dies in the order lookup instead of reporting and skipping
the item — refuting both "only an already-exists failure triggers the
fallback" and "processing always continues". -/
theorem c5_counterexample :
    wEnvFail.createStatus ≠ 200 ∧
    wEnvFail.ordersByItemId (strToCodes "itemid") = [] ∧
    runSellerLine wEnvFail (strToCodes "+ ash prime set") =
      some (strToCodes "ash_prime_set", .fallbackLookupError) := by
  refine ⟨by decide, rfl, by decide⟩

/-- Witness for C5 under `wEnvFail`. -/
theorem c5_witness :
    (create_sell_order wEnvFail (strToCodes "itemid") 30 1 none ≠ .created ∧
      (create_sell_order wEnvFail (strToCodes "itemid") 30 1 none = .fallbackLookupError ↔
        wEnvFail.ordersByItemId (strToCodes "itemid") = []) ∧
      (wEnvFail.ordersByItemId (strToCodes "itemid") ≠ [] →
        (create_sell_order wEnvFail (strToCodes "itemid") 30 1 none = .updated ↔
          wEnvFail.updateStatus = 200))) ∧
    SellerOutcome.fallbackLookupError ≠ SellerOutcome.created :=
  ⟨(c5_any_failure_falls_back.1 wEnvFail (strToCodes "itemid") 30 1 none).2 (by decide),
    c5_any_failure_falls_back.2 wEnvFail (strToCodes "+ ash prime set")
      (strToCodes "ash_prime_set") .fallbackLookupError (by decide) (by decide)⟩

/-! ## The `orokin` → `corrupted` rewrite -/

lemma pyReplaceGo_irrel (pat rep : Str) (hp : pat ≠ []) :
    ∀ (n : Nat) (s : Str), s.length ≤ n → ∀ f1 f2, s.length ≤ f1 → s.length ≤ f2 →
      pyReplaceGo pat rep f1 s = pyReplaceGo pat rep f2 s := by
  intro n
  induction n with
  | zero =>
    intro s hs f1 f2 _ _
    have h0 : s = [] := List.length_eq_zero.mp (Nat.le_zero.mp hs)
    subst h0
    cases f1 <;> cases f2 <;> rfl
  | succ k ih =>
    intro s hs f1 f2 h1 h2
    match s with
    | [] => cases f1 <;> cases f2 <;> rfl
    | c :: t =>
      simp only [List.length_cons] at hs h1 h2
      match f1, f2 with
      | 0, _ => omega
      | _ + 1, 0 => omega
      | a + 1, b + 1 =>
        simp only [pyReplaceGo]
        by_cases hc : pat ≠ [] ∧ pat.isPrefixOf (c :: t)
        · rw [if_pos hc, if_pos hc]
          have hlp : 1 ≤ pat.length := List.length_pos.mpr hp
          have hld : ((c :: t).drop pat.length).length = t.length + 1 - pat.length := by
            simp [List.length_drop]
          congr 1
          exact ih _ (by omega) a b (by omega) (by omega)
        · rw [if_neg hc, if_neg hc]
          congr 1
          exact ih t (by omega) a b (by omega) (by omega)

lemma pyReplace_pos (pat rep u : Str) (hp : pat ≠ []) :
    pyReplace pat rep (pat ++ u) = rep ++ pyReplace pat rep u := by
  match pat, hp with
  | c :: pat', _ =>
    show pyReplaceGo _ _ ((c :: pat') ++ u).length ((c :: pat') ++ u) = _
    have hsh : (c :: pat') ++ u = c :: (pat' ++ u) := rfl
    rw [hsh]
    simp only [List.length_cons, pyReplaceGo]
    rw [if_pos ⟨by simp, List.isPrefixOf_iff_prefix.mpr (by exact ⟨u, by simp⟩)⟩]
    congr 1
    have hdrop : (c :: (pat' ++ u)).drop (pat'.length + 1) = u := by
      rw [List.drop_succ_cons]
      exact List.drop_left _ _
    rw [hdrop]
    exact pyReplaceGo_irrel _ rep (by simp) (pat' ++ u).length u
      (by simp) _ _ (by simp) (by simp)

lemma pyReplace_neg (pat rep : Str) (c : Nat) (t : Str) (h : ¬ pat <+: (c :: t)) :
    pyReplace pat rep (c :: t) = c :: pyReplace pat rep t := by
  show pyReplaceGo _ _ (c :: t).length (c :: t) = _
  simp only [List.length_cons, pyReplaceGo]
  rw [if_neg (fun hc => h ( List.isPrefixOf_iff_prefix.mp hc.2))]
  rfl

lemma orokin_infix_of_rep_append (X : Str) (h : orokinS <:+: corruptedS ++ X) :
    orokinS <:+: X := by
  obtain ⟨a, b, hab⟩ := h
  have hab2 : a ++ (orokinS ++ b) = corruptedS ++ X := by
    simpa [List.append_assoc] using hab
  rcases Nat.lt_or_ge a.length 9 with h9 | h9
  · exfalso
    have hdrop : orokinS ++ b = (corruptedS ++ X).drop a.length := by
      rw [← hab2, List.drop_left]
    rw [List.drop_append_eq_append_drop] at hdrop
    have hcl : corruptedS.length = 9 := by decide
    rcases Nat.lt_or_ge a.length 4 with h4 | h4
    · -- the occurrence would lie inside `corrupted`
      have htake : orokinS = (corruptedS.drop a.length).take 6 := by
        have h6 : (orokinS ++ b).take 6 = orokinS := by
          have : orokinS.length = 6 := by decide
          rw [← this, List.take_left]
        rw [hdrop] at h6
        rw [List.take_append_eq_append_take] at h6
        have hlen : (corruptedS.drop a.length).length = 9 - a.length := by
          simp [List.length_drop, hcl]
        rw [show 6 - (corruptedS.drop a.length).length = 0 by omega] at h6
        simp at h6
        exact h6.symm
      have hdec : ∀ i < 4, ¬ ((corruptedS.drop i).take 6 = orokinS) := by decide
      exact hdec a.length h4 htake.symm
    · -- the occurrence would cover the final `d` of `corrupted`
      have htake : orokinS.take (9 - a.length) = corruptedS.drop a.length := by
        have h6 : (orokinS ++ b).take (9 - a.length) = orokinS.take (9 - a.length) := by
          rw [List.take_append_eq_append_take]
          have : orokinS.length = 6 := by decide
          rw [show 9 - a.length - orokinS.length = 0 by omega]
          simp
        rw [hdrop] at h6
        rw [List.take_append_eq_append_take] at h6
        have hlen : (corruptedS.drop a.length).length = 9 - a.length := by
          simp [List.length_drop, hcl]
        rw [show 9 - a.length - (corruptedS.drop a.length).length = 0 by omega] at h6
        rw [List.take_of_length_le (le_of_eq hlen)] at h6
        simpa using h6.symm
      have hdec : ∀ i < 9, 4 ≤ i → ¬ (orokinS.take (9 - i) = corruptedS.drop i) := by decide
      exact hdec a.length h9 h4 htake
  · have hX : X = a.drop 9 ++ (orokinS ++ b) := by
      have hrhs : (corruptedS ++ X).drop 9 = X := by
        have hcl : corruptedS.length = 9 := by decide
        rw [← hcl, List.drop_left]
      have hd := congrArg (List.drop 9) hab2
      rw [hrhs, List.drop_append_eq_append_drop, show 9 - a.length = 0 by omega] at hd
      simpa using hd.symm
    exact ⟨a.drop 9, b, by rw [hX, List.append_assoc]⟩

lemma orokin_frag_step : ∀ (n : Nat) (t : Str), t.length ≤ n → ∀ j, 1 ≤ j → j ≤ 5 →
    orokinS.drop j <+: pyReplace orokinS corruptedS t → orokinS.drop j <+: t := by
  intro n
  induction n with
  | zero =>
    intro t ht j h1 h5 h
    have h0 : t = [] := List.length_eq_zero.mp (Nat.le_zero.mp ht)
    subst h0
    rw [show pyReplace orokinS corruptedS [] = [] from rfl] at h
    have hnil := List.prefix_nil.mp h
    have hlen := congrArg List.length hnil
    simp [orokinS] at hlen
    omega
  | succ k ih =>
    intro t ht j h1 h5 h
    have hj6 : j < orokinS.length := by simp [orokinS]; omega
    by_cases hpre : orokinS <+: t
    · obtain ⟨u, rfl⟩ := hpre
      rw [pyReplace_pos _ _ _ (by decide)] at h
      exfalso
      rw [List.drop_eq_getElem_cons hj6] at h
      rw [show (corruptedS ++ pyReplace orokinS corruptedS u) =
        99 :: ([111, 114, 114, 117, 112, 116, 101, 100] ++ pyReplace orokinS corruptedS u)
          from rfl] at h
      rw [List.cons_prefix_cons] at h
      have hmem : orokinS[j] ∈ orokinS := List.getElem_mem hj6
      rw [h.1] at hmem
      exact absurd hmem (by decide)
    · match t with
      | [] =>
        exfalso
        rw [show pyReplace orokinS corruptedS [] = [] from rfl] at h
        have hnil := List.prefix_nil.mp h
        have hlen := congrArg List.length hnil
        simp [orokinS] at hlen
        omega
      | c :: u =>
        rw [pyReplace_neg _ _ _ _ hpre] at h
        rw [List.drop_eq_getElem_cons hj6] at h ⊢
        rw [List.cons_prefix_cons] at h ⊢
        refine ⟨h.1, ?_⟩
        by_cases hj5 : j = 5
        · subst hj5
          rw [show orokinS.drop 6 = [] from rfl]
          exact List.nil_prefix
        · have hlt : u.length ≤ k := by
            simp only [List.length_cons] at ht
            omega
          exact ih u hlt (j + 1) (by omega) (by omega) h.2

lemma replOro_no_orokin : ∀ (n : Nat) (s : Str), s.length ≤ n →
    ¬ orokinS <:+: pyReplace orokinS corruptedS s := by
  intro n
  induction n with
  | zero =>
    intro s hs h
    have h0 : s = [] := List.length_eq_zero.mp (Nat.le_zero.mp hs)
    subst h0
    rw [show pyReplace orokinS corruptedS [] = [] from rfl] at h
    have := List.eq_nil_of_sublist_nil h.sublist
    simp [orokinS] at this
  | succ k ih =>
    intro s hs h
    by_cases hpre : orokinS <+: s
    · obtain ⟨u, rfl⟩ := hpre
      rw [pyReplace_pos _ _ _ (by decide)] at h
      have hu : u.length ≤ k := by
        simp only [List.length_append, orokinS] at hs
        simp at hs
        omega
      exact ih u hu (orokin_infix_of_rep_append _ h)
    · match s with
      | [] =>
        rw [show pyReplace orokinS corruptedS [] = [] from rfl] at h
        have := List.eq_nil_of_sublist_nil h.sublist
        simp [orokinS] at this
      | c :: u =>
        rw [pyReplace_neg _ _ _ _ hpre] at h
        obtain ⟨a, b, hab⟩ := h
        match a with
        | [] =>
          simp only [List.nil_append] at hab
          rw [show orokinS = 111 :: orokinS.drop 1 from rfl, List.cons_append,
            List.cons.injEq] at hab
          have hfrag : orokinS.drop 1 <+: pyReplace orokinS corruptedS u :=
            ⟨b, hab.2⟩
          have hfp := orokin_frag_step u.length u le_rfl 1 (by omega) (by omega) hfrag
          apply hpre
          rw [show orokinS = 111 :: orokinS.drop 1 from rfl, ← hab.1]
          exact List.cons_prefix_cons.mpr ⟨rfl, hfp⟩
        | a1 :: a' =>
          rw [List.cons_append, List.cons_append, List.cons.injEq] at hab
          have hin : orokinS <:+: pyReplace orokinS corruptedS u := ⟨a', b, hab.2⟩
          exact ih u (by simp only [List.length_cons] at hs; omega) hin

lemma replOro_has_corrupted : ∀ (n : Nat) (s : Str), s.length ≤ n →
    orokinS <:+: s → corruptedS <:+: pyReplace orokinS corruptedS s := by
  intro n
  induction n with
  | zero =>
    intro s hs h
    have h0 : s = [] := List.length_eq_zero.mp (Nat.le_zero.mp hs)
    subst h0
    have := List.eq_nil_of_sublist_nil h.sublist
    simp [orokinS] at this
  | succ k ih =>
    intro s hs h
    by_cases hpre : orokinS <+: s
    · obtain ⟨u, rfl⟩ := hpre
      rw [pyReplace_pos _ _ _ (by decide)]
      exact ⟨[], pyReplace orokinS corruptedS u, by simp⟩
    · match s with
      | [] =>
        have := List.eq_nil_of_sublist_nil h.sublist
        simp [orokinS] at this
      | c :: u =>
        rw [pyReplace_neg _ _ _ _ hpre]
        obtain ⟨a, b, hab⟩ := h
        match a with
        | [] =>
          exfalso
          exact hpre ⟨b, by simpa using hab⟩
        | a1 :: a' =>
          rw [List.cons_append, List.cons_append, List.cons.injEq] at hab
          have hin : orokinS <:+: u := ⟨a', b, hab.2⟩
          exact List.infix_cons
            (ih u (by simp only [List.length_cons] at hs; omega) hin)

/-- C10: for every parsed intent the Seller driver derives a single
marketplace key — the item name lowercased, spaces replaced by
underscores, and every occurrence of `"orokin"` replaced by
`"corrupted"` — and uses it for the id lookup, the pricing and the
listing; the key never contains `"orokin"`, and whenever the lowercased
name contains `"orokin"` the key contains `"corrupted"` instead. -/
theorem c10_orokin_key (line : Str) (info : LineInfo)
    (h : parse_line line = some info) :
    (∀ (env : SellerEnv) (res : Str × SellerOutcome),
      runSellerLine env line = some res → res.1 = marketKey info.item_name) ∧
    ¬ orokinS <:+: marketKey info.item_name ∧
    (orokinS <:+: info.item_name.map toLowerCh →
      corruptedS <:+: marketKey info.item_name) := by
  refine ⟨?_, ?_, ?_⟩
  · intro env res hres
    rw [runSellerLine, h] at hres
    dsimp only at hres
    rcases hid : env.item_id (marketKey info.item_name) with _ | iid
    · rw [hid] at hres
      dsimp only at hres
      simp only [Option.some_inj] at hres
      rw [← hres]
    · rw [hid] at hres
      dsimp only at hres
      by_cases hnil : iid = []
      · rw [if_pos hnil] at hres
        simp only [Option.some_inj] at hres
        rw [← hres]
      · rw [if_neg hnil] at hres
        rcases hgp : get_price (env.book (marketKey info.item_name))
            (info.min_price.getD DEFAULT_MIN_PRICE) with _ | p
        · rw [hgp] at hres
          dsimp only at hres
          simp only [Option.some_inj] at hres
          rw [← hres]
        · rw [hgp] at hres
          dsimp only at hres
          by_cases hz : p = 0
          · rw [if_pos hz] at hres
            simp only [Option.some_inj] at hres
            rw [← hres]
          · rw [if_neg hz] at hres
            simp only [Option.some_inj] at hres
            rw [← hres]
  · exact replOro_no_orokin _ _ le_rfl
  · intro hlow
    have h2 : orokinS <:+:
        (info.item_name.map toLowerCh).map (fun c => if c = 32 then 95 else c) := by
      obtain ⟨a, b, hab⟩ := hlow
      refine ⟨a.map (fun c => if c = 32 then 95 else c),
        b.map (fun c => if c = 32 then 95 else c), ?_⟩
      rw [← hab]
      simp only [List.map_append]
      rw [show orokinS.map (fun c => if c = 32 then 95 else c) = orokinS from by decide]
    exact replOro_has_corrupted _ _ le_rfl h2

/-- Witness for C10 at the line `"+ orokin cell 3"`: the key is
`"corrupted_cell"`, free of `"orokin"`. -/
theorem c10_witness :
    parse_line (strToCodes "+ orokin cell 3") =
      some ⟨strToCodes "Orokin Cell", none, none, some 3⟩ ∧
    marketKey (strToCodes "Orokin Cell") = strToCodes "corrupted_cell" ∧
    (¬ orokinS <:+: marketKey (strToCodes "Orokin Cell")) ∧
    corruptedS <:+: marketKey (strToCodes "Orokin Cell") := by
  refine ⟨by decide, by decide, ?_, ?_⟩
  · exact (c10_orokin_key (strToCodes "+ orokin cell 3")
      ⟨strToCodes "Orokin Cell", none, none, some 3⟩ (by decide)).2.1
  · exact (c10_orokin_key (strToCodes "+ orokin cell 3")
      ⟨strToCodes "Orokin Cell", none, none, some 3⟩ (by decide)).2.2 (by decide)

/-! ## Backup and file-write ordering -/

lemma pyLines_flatten : ∀ s : Str, (pyLines s).flatten = s := by
  intro s
  induction s with
  | nil => rfl
  | cons c t ih =>
    by_cases h : c = 10
    · subst h
      simp [pyLines, ih]
    · simp only [pyLines, h, if_neg, if_false]
      cases hp : pyLines t with
      | nil =>
        have ht : t = [] := by rw [hp] at ih; simpa using ih.symm
        simp [ht]
      | cons l ls =>
        rw [hp] at ih
        simp only [List.flatten_cons] at ih ⊢
        simp [← ih]

lemma takeWhile_append_stop (p : Nat → Bool) : ∀ (A : Str) (x : Nat) (B : Str),
    (∀ a ∈ A, p a = true) → p x = false →
    (A ++ x :: B).takeWhile p = A ∧ (A ++ x :: B).dropWhile p = x :: B := by
  intro A
  induction A with
  | nil => intro x B _ hx; simp [List.takeWhile_cons, List.dropWhile_cons, hx]
  | cons a A2 ih =>
    intro x B hall hx
    have ha : p a = true := hall a (by simp)
    have h2 := ih x B (fun y hy => hall y (by simp [hy])) hx
    simp [List.takeWhile_cons, List.dropWhile_cons, ha, h2.1, h2.2]

lemma bakPathOf_append (stem ext : Str) (h : 46 ∉ ext) :
    bakPathOf (stem ++ 46 :: ext) = stem ++ strToCodes "_bak" ++ 46 :: ext := by
  unfold bakPathOf
  have hrev : (stem ++ 46 :: ext).reverse = ext.reverse ++ 46 :: stem.reverse := by
    simp [List.reverse_append]
  rw [hrev]
  have hall : ∀ a ∈ ext.reverse, (fun c => !decide (c = 46)) a = true := by
    intro a ha
    simp only [Bool.not_eq_true', decide_eq_false_iff_not]
    exact fun hc => h (List.mem_reverse.mp (hc ▸ ha))
  have h46 : (fun c => !decide (c = 46)) 46 = false := by simp
  have hts := takeWhile_append_stop _ ext.reverse 46 stem.reverse hall h46
  simp only [hts.1, hts.2]
  simp

lemma foldl_applyEv_wBaks : ∀ (L : List Str) (fs : Fs) (b : Str),
    (L.map FsEv.wBak).foldl applyEv { fs with bak := some b } =
      { fs with bak := some (b ++ L.flatten) } := by
  intro L
  induction L with
  | nil => intro fs b; simp
  | cons l L2 ih =>
    intro fs b
    simp only [List.map_cons, List.foldl_cons]
    rw [show applyEv { fs with bak := some b } (FsEv.wBak l) =
      { fs with bak := some (b ++ l) } from by simp [applyEv]]
    rw [ih fs (b ++ l)]
    simp [List.flatten_cons]

lemma foldl_orig_const : ∀ (evs : List FsEv) (fs : Fs),
    (∀ s, FsEv.wOrig s ∉ evs) → (evs.foldl applyEv fs).orig = fs.orig := by
  intro evs
  induction evs with
  | nil => intro fs _; rfl
  | cons e rest ih =>
    intro fs hno
    cases e with
    | openBak =>
      rw [List.foldl_cons, ih _ (fun s hs => hno s (by simp [hs]))]
      rfl
    | wBak s =>
      rw [List.foldl_cons, ih _ (fun s2 hs => hno s2 (by simp [hs]))]
      rfl
    | wOrig s => exact absurd (by simp) (hno s)

/-- C7: when Sync proceeds (the user has live orders), its event trace
writes the backup — whose final content is exactly the pre-sync file
content — strictly before the one write that overwrites the original, so
stopping the run anywhere during the backup phase leaves the original
untouched; the backup path inserts the fixed `_bak` suffix between the stem
and the extension of the sell-list path. -/
theorem c7_backup_before_overwrite (d : OrdersDict) (content : Str) (fs : Fs)
    (hne : d.isEmpty = false) :
    (execN (syncEvents d content).length fs (syncEvents d content)).bak = some content ∧
    (execN (syncEvents d content).length fs (syncEvents d content)).orig =
      syncOutput d content ∧
    (∀ k, k ≤ 1 + (pyLines content).length →
      (execN k fs (syncEvents d content)).orig = fs.orig) ∧
    bakPathOf SELL_LIST_FILE = strToCodes "sell_list_bak.txt" ∧
    (∀ stem ext, 46 ∉ ext →
      bakPathOf (stem ++ 46 :: ext) = stem ++ strToCodes "_bak" ++ 46 :: ext) := by
  have hevs : syncEvents d content =
      FsEv.openBak ::
        ((pyLines content).map FsEv.wBak ++ [FsEv.wOrig (syncOutput d content)]) := by
    simp [syncEvents, hne]
  have hfull : execN (syncEvents d content).length fs (syncEvents d content) =
      { orig := syncOutput d content, bak := some content } := by
    unfold execN
    rw [List.take_length, hevs, List.foldl_cons, List.foldl_append]
    rw [show applyEv fs .openBak = { fs with bak := some [] } from rfl]
    rw [foldl_applyEv_wBaks]
    simp [applyEv, pyLines_flatten]
  refine ⟨by rw [hfull], by rw [hfull], ?_, by decide, bakPathOf_append⟩
  intro k hk
  unfold execN
  rw [hevs]
  rw [show (FsEv.openBak ::
      ((pyLines content).map FsEv.wBak ++ [FsEv.wOrig (syncOutput d content)])) =
    (FsEv.openBak :: (pyLines content).map FsEv.wBak) ++
      [FsEv.wOrig (syncOutput d content)] from by simp]
  rw [List.take_append_eq_append_take]
  have hk2 : k - (FsEv.openBak :: (pyLines content).map FsEv.wBak).length = 0 := by
    simp only [List.length_cons, List.length_map]
    omega
  rw [hk2]
  simp only [List.take_zero, List.append_nil]
  apply foldl_orig_const
  intro s hs
  have hsub := List.take_subset k _ hs
  rcases List.mem_cons.mp hsub with hc | hc
  · exact absurd hc (by simp)
  · obtain ⟨l, _, hl⟩ := List.mem_map.mp hc
    exact absurd hl (by simp)

/-- Witness for C7 on a two-line file and the `wDictInt` pool. -/
theorem c7_witness :
    (wDictInt.isEmpty = false) ∧
    (execN (syncEvents wDictInt (strToCodes "x\ny")).length ⟨strToCodes "x\ny", none⟩
        (syncEvents wDictInt (strToCodes "x\ny"))).bak = some (strToCodes "x\ny") ∧
    (execN 2 ⟨strToCodes "x\ny", none⟩ (syncEvents wDictInt (strToCodes "x\ny"))).orig =
      strToCodes "x\ny" ∧
    bakPathOf SELL_LIST_FILE = strToCodes "sell_list_bak.txt" := by
  have h := c7_backup_before_overwrite wDictInt (strToCodes "x\ny")
    ⟨strToCodes "x\ny", none⟩ (by decide)
  exact ⟨by decide, h.1, h.2.2.1 2 (by decide), h.2.2.2.1⟩

/-! ## Well-formed lines and the parse/format round trip -/

lemma pyIsDigit_natDigits (n : Nat) : pyIsDigit (natDigits n) = true := by
  cases hnd : natDigits n with
  | nil => exact absurd hnd (natDigits_ne_nil n)
  | cons c rest =>
    have hall := natDigits_all_digit n
    rw [hnd] at hall
    simp [pyIsDigit, hall]

lemma natDigits_head_digit (n : Nat) :
    ∃ c rest, natDigits n = c :: rest ∧ isDigitCh c = true := by
  cases hnd : natDigits n with
  | nil => exact absurd hnd (natDigits_ne_nil n)
  | cons c rest =>
    refine ⟨c, rest, rfl, ?_⟩
    have hall := natDigits_all_digit n
    rw [hnd] at hall
    simp only [List.all_cons, Bool.and_eq_true] at hall
    exact hall.1

lemma isRTokB_ne114 (c : Nat) (X : Str) (h : ¬ c = 114) : isRTokB (c :: X) = false := by
  simp [isRTokB, h]

lemma isMinTokB_ne109 (c : Nat) (X : Str) (h : ¬ c = 109) : isMinTokB (c :: X) = false := by
  match X with
  | [] => rfl
  | [c2] => rfl
  | c2 :: c3 :: rest => simp [isMinTokB, h]

lemma pyIsDigit_rTokOf (n : Nat) : pyIsDigit (rTokOf n) = false := by
  simp [pyIsDigit, rTokOf, isDigitCh]

lemma pyIsDigit_minTokOf (n : Nat) : pyIsDigit (minTokOf n) = false := by
  simp [pyIsDigit, minTokOf, isDigitCh]

lemma isRTokB_rTokOf (n : Nat) : isRTokB (rTokOf n) = true := by
  simp [isRTokB, rTokOf, pyIsDigit_natDigits]

lemma isRTokB_minTokOf (n : Nat) : isRTokB (minTokOf n) = false := by
  simp [isRTokB, minTokOf]

lemma isRTokB_natDigits (n : Nat) : isRTokB (natDigits n) = false := by
  obtain ⟨c, rest, hnd, hc⟩ := natDigits_head_digit n
  rw [hnd]
  refine isRTokB_ne114 c rest ?_
  simp only [isDigitCh, decide_eq_true_eq] at hc
  omega

lemma isMinTokB_natDigits (n : Nat) : isMinTokB (natDigits n) = false := by
  obtain ⟨c, rest, hnd, hc⟩ := natDigits_head_digit n
  rw [hnd]
  refine isMinTokB_ne109 c rest ?_
  simp only [isDigitCh, decide_eq_true_eq] at hc
  omega

lemma isMinTokB_rTokOf (n : Nat) : isMinTokB (rTokOf n) = false :=
  isMinTokB_ne109 114 (natDigits n) (by omega)

lemma isMinTokB_minTokOf (n : Nat) : isMinTokB (minTokOf n) = true := by
  simp [isMinTokB, minTokOf, pyIsDigit_natDigits]

lemma natDigits_nonspace (n : Nat) : (natDigits n).all (fun c => !isSpace c) = true := by
  rw [List.all_eq_true]
  intro c hc
  have hall := natDigits_all_digit n
  rw [List.all_eq_true] at hall
  have hd := hall c hc
  simp only [isDigitCh, decide_eq_true_eq] at hd
  simp only [isSpace, Bool.not_eq_true', decide_eq_false_iff_not]
  omega

lemma wf_all_tokens (toks : List Str) (r m q : Option Nat)
    (hwf : ∀ t ∈ toks, WfTok t) :
    ∀ t ∈ toks ++ modToks r m q, t ≠ [] ∧ t.all (fun c => !isSpace c) = true := by
  intro t ht
  rcases List.mem_append.mp ht with ht | ht
  · obtain ⟨h1, h2, _⟩ := hwf t ht
    refine ⟨h1, ?_⟩
    rw [List.all_eq_true]
    intro c hc
    simp [(h2 c hc).1]
  · have hmods : ∀ n : Nat, (rTokOf n ≠ [] ∧ (rTokOf n).all (fun c => !isSpace c) = true) ∧
        (minTokOf n ≠ [] ∧ (minTokOf n).all (fun c => !isSpace c) = true) ∧
        (natDigits n ≠ [] ∧ (natDigits n).all (fun c => !isSpace c) = true) := by
      intro n
      refine ⟨⟨by simp [rTokOf], ?_⟩, ⟨by simp [minTokOf], ?_⟩,
        ⟨natDigits_ne_nil n, natDigits_nonspace n⟩⟩
      · simp only [rTokOf, List.all_cons, natDigits_nonspace n, Bool.and_true]
        decide
      · simp only [minTokOf, List.all_cons, natDigits_nonspace n, Bool.and_true]
        decide
    rcases r with _ | a <;> rcases m with _ | b <;> rcases q with _ | c <;>
      simp only [modToks, optTok, List.append_nil, List.nil_append, List.cons_append,
        List.mem_append, List.mem_cons, List.mem_singleton, List.not_mem_nil] at ht <;>
      rcases ht with rfl | rfl | rfl | ht <;>
      first
        | exact (hmods _).1
        | exact (hmods _).2.1
        | exact (hmods _).2.2
        | exact absurd ht (by simp)

lemma unwords_concat : ∀ (A : List Str) (t : Str), A ≠ [] →
    unwords (A ++ [t]) = unwords A ++ (32 :: t) := by
  intro A
  induction A with
  | nil => intro t h; exact absurd rfl h
  | cons a A2 ih =>
    intro t _
    match A2 with
    | [] => rfl
    | u :: rest =>
      have h2 := ih t (by simp)
      show a ++ 32 :: unwords (u :: (rest ++ [t])) = (a ++ 32 :: unwords (u :: rest)) ++ (32 :: t)
      rw [show (u :: (rest ++ [t])) = (u :: rest) ++ [t] from rfl, h2]
      simp

lemma unwords_ends_with : ∀ (A : List Str) (t : Str), ∃ z, unwords (A ++ [t]) = z ++ t := by
  intro A t
  match A with
  | [] => exact ⟨[], rfl⟩
  | a :: A2 =>
    rw [unwords_concat (a :: A2) t (by simp)]
    exact ⟨unwords (a :: A2) ++ [32], by simp⟩

lemma unwords_append_list : ∀ (B : List Str) (A : List Str), A ≠ [] →
    unwords (A ++ B) = unwords A ++ (B.map (fun t => 32 :: t)).flatten := by
  intro B
  induction B with
  | nil => intro A _; simp
  | cons b B2 ih =>
    intro A hA
    rw [show A ++ b :: B2 = (A ++ [b]) ++ B2 from by simp]
    rw [ih (A ++ [b]) (by simp), unwords_concat A b hA]
    simp

lemma unwords_head : ∀ (toks : List Str) (c : Nat) (t1 : Str),
    (c :: t1) ∈ toks.take 1 → ∃ bs, unwords toks = c :: bs := by
  intro toks c t1 h
  match toks with
  | [] => simp at h
  | a :: rest =>
    simp only [List.take, List.mem_singleton] at h
    subst h
    match rest with
    | [] => exact ⟨t1, rfl⟩
    | u :: rest2 => exact ⟨t1 ++ 32 :: unwords (u :: rest2), rfl⟩

lemma body_end (toks : List Str) (r m q : Option Nat) (hne : toks ≠ [])
    (hwf : ∀ t ∈ toks, WfTok t) :
    ∃ z d, unwords (toks ++ modToks r m q) = z ++ [d] ∧ isSpace d = false := by
  have hall := wf_all_tokens toks r m q hwf
  have hane : toks ++ modToks r m q ≠ [] := by simp [hne]
  obtain ⟨A, lt, hAlt⟩ : ∃ A lt, toks ++ modToks r m q = A ++ [lt] :=
    ⟨(toks ++ modToks r m q).dropLast, (toks ++ modToks r m q).getLast hane,
      (List.dropLast_append_getLast hane).symm⟩
  have hltmem : lt ∈ toks ++ modToks r m q := by rw [hAlt]; simp
  obtain ⟨hlt1, hlt2⟩ := hall lt hltmem
  obtain ⟨y, d, hyd⟩ : ∃ y d, lt = y ++ [d] :=
    ⟨lt.dropLast, lt.getLast hlt1, (List.dropLast_append_getLast hlt1).symm⟩
  obtain ⟨z, hz⟩ := unwords_ends_with A lt
  refine ⟨z ++ y, d, ?_, ?_⟩
  · rw [hAlt, hz, hyd]
    simp
  · have hmem : d ∈ lt := by rw [hyd]; simp
    rw [List.all_eq_true] at hlt2
    have hds := hlt2 d hmem
    simpa using hds

lemma mkLine_strip (ind : Nat) (toks : List Str) (r m q : Option Nat)
    (hne : toks ≠ []) (hwf : ∀ t ∈ toks, WfTok t) :
    pyStrip (mkLine ind toks r m q) = 43 :: 32 :: unwords (toks ++ modToks r m q) := by
  obtain ⟨z, d, hzd, hd⟩ := body_end toks r m q hne hwf
  unfold mkLine pyStrip
  rw [lstrip_replicate]
  rw [lstrip_cons_nonspace _ (show isSpace 43 = false by decide)]
  rw [hzd]
  rw [show 43 :: 32 :: ((z ++ [d]) ++ [10]) = ((43 :: 32 :: z) ++ [d]) ++ [10] from by simp]
  rw [rstrip_concat_space _ (show isSpace 10 = true by decide)]
  rw [rstrip_concat_nonspace _ hd]
  simp

lemma pyStrip_space_body (body : Str) (c : Nat) (bs : Str) (z : Str) (d : Nat)
    (hhead : body = c :: bs) (hc : isSpace c = false)
    (hend : body = z ++ [d]) (hd : isSpace d = false) :
    pyStrip (32 :: body) = body := by
  unfold pyStrip
  rw [show lstrip (32 :: body) = lstrip body from by
    simp [lstrip, List.dropWhile_cons, isSpace]]
  rw [hhead, lstrip_cons_nonspace _ hc, ← hhead, hend, rstrip_concat_nonspace _ hd]

lemma unwords_cons_head (c : Nat) (t1c : Str) (rest : List Str) :
    ∃ bs, unwords ((c :: t1c) :: rest) = c :: bs := by
  match rest with
  | [] => exact ⟨t1c, rfl⟩
  | u :: rest2 => exact ⟨t1c ++ 32 :: unwords (u :: rest2), rfl⟩

lemma body_head (toks : List Str) (B : List Str) (hne : toks ≠ [])
    (hwf : ∀ t ∈ toks, WfTok t) :
    ∃ c bs, unwords (toks ++ B) = c :: bs ∧ isSpace c = false := by
  match toks, hne with
  | t1 :: toks2, _ =>
    obtain ⟨h1, h2, _⟩ := hwf t1 (by simp)
    match t1, h1 with
    | c :: t1c, _ =>
      obtain ⟨bs, hbs⟩ := unwords_cons_head c t1c (toks2 ++ B)
      exact ⟨c, bs, by rw [List.cons_append, hbs], (h2 c (by simp)).1⟩

lemma find?_append_of_none {α} (p : α → Bool) :
    ∀ (A B : List α), A.find? p = none → (A ++ B).find? p = B.find? p := by
  intro A
  induction A with
  | nil => intro B _; rfl
  | cons a A2 ih =>
    intro B h
    by_cases hp : p a = true
    · rw [List.find?_cons_of_pos _ hp] at h
      exact absurd h (by simp)
    · rw [List.find?_cons_of_neg _ hp] at h
      rw [List.cons_append, List.find?_cons_of_neg _ hp]
      exact ih B h

lemma dl1 (A : List Str) (x : Str) : (A ++ [x]).dropLast = A := List.dropLast_concat ..

lemma dl2 (A : List Str) (x y : Str) : (A ++ [x, y]).dropLast = A ++ [x] := by
  rw [show A ++ [x, y] = (A ++ [x]) ++ [y] from by simp, List.dropLast_concat]

lemma dl3 (A : List Str) (x y w : Str) : (A ++ [x, y, w]).dropLast = A ++ [x, y] := by
  rw [show A ++ [x, y, w] = (A ++ [x, y]) ++ [w] from by simp, List.dropLast_concat]

lemma parse_mkLine (ind : Nat) (toks : List Str) (r m q : Option Nat)
    (hne : toks ≠ []) (hwf : ∀ t ∈ toks, WfTok t) :
    parse_line (mkLine ind toks r m q) = some ⟨pyTitle (unwords toks), r, m, q⟩ := by
  have hstrip := mkLine_strip ind toks r m q hne hwf
  obtain ⟨z, d, hzd, hd⟩ := body_end toks r m q hne hwf
  obtain ⟨c, bs, hcbs, hc⟩ := body_head toks (modToks r m q) hne hwf
  have hpre : [43].isPrefixOf (pyStrip (mkLine ind toks r m q)) = true := by
    rw [hstrip]
    simp [List.isPrefixOf]
  simp only [parse_line, hpre, if_true]
  rw [hstrip]
  rw [show (43 :: 32 :: unwords (toks ++ modToks r m q)).drop 1 =
    32 :: unwords (toks ++ modToks r m q) from rfl]
  rw [pyStrip_space_body _ c bs z d hcbs hc hzd hd]
  rw [splitWs_unwords _ (wf_all_tokens toks r m q hwf)]
  rw [foldl_classify_eq]
  have hfq0 : toks.find? pyIsDigit = none :=
    List.find?_eq_none.mpr (fun t ht => by simp [(hwf t ht).2.2.1])
  have hfr0 : toks.find? rTokP = none :=
    List.find?_eq_none.mpr (fun t ht => by simp [rTokP, (hwf t ht).2.2.2.1])
  have hfm0 : toks.find? mTokP = none :=
    List.find?_eq_none.mpr (fun t ht => by simp [mTokP, (hwf t ht).2.2.2.2])
  rw [find?_append_of_none _ _ _ hfq0, find?_append_of_none _ _ _ hfr0,
    find?_append_of_none _ _ _ hfm0]
  rcases r with _ | a <;> rcases m with _ | b <;> rcases q with _ | e <;>
    simp only [modToks, optTok, List.append_nil, List.nil_append, List.cons_append,
      List.find?_cons, List.find?_nil, pyIsDigit_rTokOf, pyIsDigit_minTokOf,
      pyIsDigit_natDigits, isRTokB_rTokOf, isRTokB_minTokOf, isRTokB_natDigits,
      isMinTokB_rTokOf, isMinTokB_minTokOf, isMinTokB_natDigits, rTokP, mTokP,
      Bool.not_true, Bool.not_false, Bool.false_and, Bool.true_and, Bool.and_false,
      Bool.and_true, Bool.and_self, cond_true, cond_false] <;>
    simp [rTokOf, minTokOf, pyInt_natDigits, dl1, dl2, dl3]

lemma map_id_of_no95 : ∀ l : Str, l.all (fun c => !decide (c = 95)) = true →
    l.map (fun c => if c = 95 then 32 else c) = l := by
  intro l
  induction l with
  | nil => intro _; rfl
  | cons c t ih =>
    intro h
    simp only [List.all_cons, Bool.and_eq_true, Bool.not_eq_true',
      decide_eq_false_iff_not] at h
    simp only [List.map_cons, if_neg h.1, ih h.2]

lemma create_line_mkLine (toks : List Str) (r m q : Option Nat)
    (hne : toks ≠ []) (hwf : ∀ t ∈ toks, WfTok t) (hq : q ≠ some 0) :
    create_line ⟨pyTitle (unwords toks), r, m, q⟩ = mkLine 2 (toks.map pyTitle) r m q := by
  have hno95 : (unwords toks).all (fun c => !decide (c = 95)) = true := by
    refine unwords_all _ (by decide) toks (fun t ht => ?_)
    rw [List.all_eq_true]
    intro x hx
    simpa using ((hwf t ht).2.1 x hx).2
  have hQ : ∀ (p : Bool) (c : Nat),
      (fun c => !decide (c = 95)) (titleMap p c) = (fun c => !decide (c = 95)) c := by
    intro p c
    simp only
    rw [und_titleMap p c]
  have hno95T : (pyTitle (unwords toks)).all (fun c => !decide (c = 95)) = true := by
    rw [pyTitle, titleAux_all _ hQ]
    exact hno95
  have hname : (pyTitle (unwords toks)).map (fun c => if c = 95 then 32 else c) =
      pyTitle (unwords toks) := map_id_of_no95 _ hno95T
  have hneT : toks.map pyTitle ≠ [] := by
    simpa using hne
  have hsplit := unwords_append_list (modToks r m q) (toks.map pyTitle) hneT
  simp only [create_line, mkLine]
  rw [if_neg (show ¬ ((⟨pyTitle (unwords toks), r, m, q⟩ : LineInfo).quantity = some 0)
    from hq)]
  rw [hname, pyTitle_unwords, hsplit]
  rcases q with _ | e
  · rcases r with _ | a <;> rcases m with _ | b <;>
      simp only [modToks, optTok, List.append_nil, List.nil_append, List.cons_append,
        List.map_cons, List.map_nil, List.flatten_cons, List.flatten_nil,
        SELL_LIST_INDENT] <;>
      simp [rTokOf, minTokOf, List.replicate]
  · have he : ¬ e = 0 := fun h0 => hq (by rw [h0])
    rcases r with _ | a <;> rcases m with _ | b <;>
      simp only [modToks, optTok, List.append_nil, List.nil_append, List.cons_append,
        List.map_cons, List.map_nil, List.flatten_cons, List.flatten_nil,
        SELL_LIST_INDENT] <;>
      simp [rTokOf, minTokOf, List.replicate, he]

lemma pyTitle_ne_nil (t : Str) (h : t ≠ []) : pyTitle t ≠ [] := by
  intro hc
  apply h
  have hl := titleAux_length false t
  rw [show pyTitle t = titleAux false t from rfl] at hc
  rw [hc] at hl
  exact List.length_eq_zero.mp hl.symm

lemma WfTok_pyTitle (t : Str) (h : WfTok t) : WfTok (pyTitle t) := by
  obtain ⟨h1, h2, h3, h4, h5⟩ := h
  have halldig : t.all isDigitCh = false := by
    cases hall2 : t.all isDigitCh with
    | false => rfl
    | true =>
      exfalso
      rw [pyIsDigit, hall2] at h3
      simp at h3
      exact h1 h3
  refine ⟨pyTitle_ne_nil t h1, ?_, ?_, ?_, ?_⟩
  · have hsp : (pyTitle t).all (fun c => !isSpace c) = true := by
      rw [pyTitle, titleAux_all _ (fun p c => by simp only [isSpace_titleMap])]
      rw [List.all_eq_true]
      intro x hx
      simp [(h2 x hx).1]
    have h95 : (pyTitle t).all (fun c => !decide (c = 95)) = true := by
      rw [pyTitle, titleAux_all _ (fun p c => by simp only [und_titleMap])]
      rw [List.all_eq_true]
      intro x hx
      simp [(h2 x hx).2]
    rw [List.all_eq_true] at hsp h95
    intro x hx
    refine ⟨by simpa using hsp x hx, by simpa using h95 x hx⟩
  · have hall : (pyTitle t).all isDigitCh = false := by
      rw [pyTitle, titleAux_all _ isDigitCh_titleMap]
      exact halldig
    simp [pyIsDigit, hall]
  · match t, h1 with
    | c :: t2, _ =>
      rw [show pyTitle (c :: t2) = titleMap false c :: titleAux (isAlphaCh c) t2 from rfl]
      exact isRTokB_ne114 _ _ (titleMap_false_notR c).1
  · match t, h1 with
    | c :: t2, _ =>
      rw [show pyTitle (c :: t2) = titleMap false c :: titleAux (isAlphaCh c) t2 from rfl]
      exact isMinTokB_ne109 _ _ (titleMap_false_notR c).2

/-- C6 (amended): for every well-formed actionable line whose quantity is
not 0, the intent produced by the parser re-renders through the formatter
to a line that parses back to exactly the same intent — same title-cased
item name, same rank, same min price, same quantity. (The quantity-0
exclusion is forced: the formatter deliberately blanks the `+` marker on
out-of-stock lines, so they re-parse as inert.) -/
theorem c6_round_trip (ind : Nat) (toks : List Str) (r m q : Option Nat)
    (hne : toks ≠ []) (hwf : ∀ t ∈ toks, WfTok t) (hq : q ≠ some 0) :
    ∃ info, parse_line (mkLine ind toks r m q) = some info ∧
      parse_line (create_line info) = some info ∧
      info.rank = r ∧ info.min_price = m ∧ info.quantity = q ∧
      info.item_name = pyTitle (unwords toks) := by
  refine ⟨⟨pyTitle (unwords toks), r, m, q⟩, parse_mkLine ind toks r m q hne hwf,
    ?_, rfl, rfl, rfl, rfl⟩
  rw [create_line_mkLine toks r m q hne hwf hq]
  have hwf2 : ∀ t ∈ toks.map pyTitle, WfTok t := by
    intro t ht
    obtain ⟨t0, ht0, rfl⟩ := List.mem_map.mp ht
    exact WfTok_pyTitle t0 (hwf t0 ht0)
  have hne2 : toks.map pyTitle ≠ [] := by simpa using hne
  have hnm : pyTitle (unwords (toks.map pyTitle)) = pyTitle (unwords toks) := by
    rw [pyTitle_unwords, pyTitle_unwords, List.map_map]
    have hcomp : pyTitle ∘ pyTitle = pyTitle := by
      funext s
      exact titleAux_idem s false
    rw [hcomp]
  rw [parse_mkLine 2 (toks.map pyTitle) r m q hne2 hwf2, hnm]

/-- C6 counterexample: `"  + Foo 0"` is a well-formed actionable line with
the meaningful explicit quantity 0, but its intent renders to an
out-of-stock line without the `+` marker, which does not parse back at
all — the round trip loses the line's quantity (and everything else). -/
theorem c6_counterexample :
    parse_line (strToCodes "  + Foo 0") =
      some ⟨strToCodes "Foo", none, none, some 0⟩ ∧
    parse_line (create_line ⟨strToCodes "Foo", none, none, some 0⟩) = none := by
  constructor
  · decide
  · decide

/-- Witness for C6 on `"+ ash prime r2 min15 4"`-shaped input. -/
theorem c6_witness :
    ([strToCodes "ash", strToCodes "prime"] ≠ ([] : List Str) ∧
      (∀ t ∈ [strToCodes "ash", strToCodes "prime"], WfTok t) ∧
      (some 4 : Option Nat) ≠ some 0) ∧
    (∃ info, parse_line (mkLine 0 [strToCodes "ash", strToCodes "prime"]
        (some 2) (some 15) (some 4)) = some info ∧
      parse_line (create_line info) = some info ∧
      info.rank = some 2 ∧ info.min_price = some 15 ∧ info.quantity = some 4 ∧
      info.item_name = pyTitle (unwords [strToCodes "ash", strToCodes "prime"])) :=
  ⟨⟨by decide, by decide, by decide⟩,
    c6_round_trip 0 [strToCodes "ash", strToCodes "prime"] (some 2) (some 15) (some 4)
      (by decide) (by decide) (by decide)⟩


